import Mathlib

/-!
Verification of the `mlmpc-ring` bounded lock-free queues
(`ring_spsc.hpp`, `ring_mpmc.hpp`, `utils.hpp`, slot header).

The development is a shallow sequential embedding of the two ring variants.
Both C++ classes share the same state: a power-of-two capacity, a `head` and a
`tail` 64-bit counter, and per-physical-slot `seq` tickets plus payload
storage.  Counters are modelled as `Nat`: the source stores them in
`std::uint64_t` and the spec states that counter wrap-around is not a
correctness concern within any realistic process lifetime, so on the modelled
domain (values far below `2^64`) the `Nat` arithmetic agrees with the machine
arithmetic.  The signed comparison `intptr_t diff = (intptr_t)seq -
(intptr_t)pos` of the MPMC operations is modelled by the `Nat` ordering of
`seq` and `pos`, which agrees with the two's-complement computation whenever
`|seq - pos| < 2^63` (all states considered here keep `seq` within
`capacity + 1` of the relevant counter).

Slot payload storage is `Nat → Option α`: `some v` means the slot currently
holds a constructed element `v`, `none` means the storage holds no valid
element (uninitialized, or destroyed by a consumer).  This models the
source's construct-in-place / move-out-and-destroy discipline for either of
its two payload strategies (trivially copyable or not).

CAS loops and spin waits are embedded for a single-threaded (quiescent)
execution: a CAS on a counter that was just loaded always succeeds, and a
spin wait on a condition that no other thread can change either passes on its
first check or spins forever.  Operations that can spin forever therefore
return `Option _`, with `none` meaning the call never returns (blocks).
-/

namespace MlmpcRing

/-- From `utils.hpp`: the or-shift smearing cascade applied to `x - 1` inside
`next_pow2`.  Exact on `Nat` for inputs below `2^64` (the `size_t` domain). -/
def smear (x : Nat) : Nat :=
  let x1 := x ||| (x >>> 1)
  let x2 := x1 ||| (x1 >>> 2)
  let x3 := x2 ||| (x2 >>> 4)
  let x4 := x3 ||| (x3 >>> 8)
  let x5 := x4 ||| (x4 >>> 16)
  x5 ||| (x5 >>> 32)

/-- From `utils.hpp`: round a requested capacity up to the next power of two.
`next_pow2(x) = 1` for `x <= 1`; otherwise decrement, smear all low bits,
and add one back. -/
def next_pow2 (x : Nat) : Nat :=
  if x ≤ 1 then 1 else smear (x - 1) + 1

/-- Shared state of `RingSPSC<T>` and `RingMPMC<T>`: both classes carry a
fixed capacity (with `mask_ = capacity_ - 1` precomputed), a slot array whose
cells each hold a `seq` ticket and payload storage, and the `head_`/`tail_`
counters.  `seq p` / `storage p` is the ticket / payload of physical slot
`p`; only indices `p < capacity` are ever accessed. -/
structure Ring (α : Type) where
  capacity : Nat
  seq : Nat → Nat
  storage : Nat → Option α
  head : Nat
  tail : Nat

/-- Constructor of either ring class: capacity rounded by `next_pow2`,
`seq[i] = i` for every slot, both counters zero, storage uninitialized. -/
def mkRing (α : Type) (cap : Nat) : Ring α :=
  { capacity := next_pow2 cap
    seq := fun p => p
    storage := fun _ => none
    head := 0
    tail := 0 }

/-- Physical slot index for logical index `idx`: `slots_[idx & mask_]`. -/
def Ring.slotIdx (r : Ring α) (idx : Nat) : Nat :=
  idx &&& (r.capacity - 1)

/-- `RingSPSC::try_enqueue`: read `t = tail`; if the slot's ticket is not
`t` the ring is full, otherwise construct the payload, publish `seq = t + 1`
and advance `tail`. -/
def spscTryEnqueue (r : Ring α) (v : α) : Bool × Ring α :=
  if r.seq (r.slotIdx r.tail) = r.tail then
    (true,
      { r with
        storage := Function.update r.storage (r.slotIdx r.tail) (some v)
        seq := Function.update r.seq (r.slotIdx r.tail) (r.tail + 1)
        tail := r.tail + 1 })
  else (false, r)

/-- `RingSPSC::try_dequeue`: read `h = head`; if the slot's ticket is not
`h + 1` the ring is empty, otherwise move the payload out, destroy it,
publish `seq = h + capacity` and advance `head`.  The returned `Option α` is
the `out` parameter (`some` exactly on success). -/
def spscTryDequeue (r : Ring α) : Bool × Option α × Ring α :=
  if r.seq (r.slotIdx r.head) = r.head + 1 then
    (true, r.storage (r.slotIdx r.head),
      { r with
        storage := Function.update r.storage (r.slotIdx r.head) none
        seq := Function.update r.seq (r.slotIdx r.head) (r.head + r.capacity)
        head := r.head + 1 })
  else (false, none, r)

/-- `RingMPMC::try_enqueue`, sequential embedding of the CAS loop.  With no
concurrent thread the loaded `pos` is the current tail, so on `diff == 0` the
CAS succeeds on the first attempt; on `diff < 0` (ticket below `pos`) the
call returns full; on `diff > 0` the code reloads `tail`, obtains the same
`pos`, and loops forever (`none`). -/
def mpmcTryEnqueue (r : Ring α) (v : α) : Option (Bool × Ring α) :=
  if r.seq (r.slotIdx r.tail) = r.tail then
    some (true,
      { r with
        storage := Function.update r.storage (r.slotIdx r.tail) (some v)
        seq := Function.update r.seq (r.slotIdx r.tail) (r.tail + 1)
        tail := r.tail + 1 })
  else if r.seq (r.slotIdx r.tail) < r.tail then
    some (false, r)
  else none

/-- `RingMPMC::try_dequeue`, sequential embedding (consumer expects ticket
`pos + 1`; `diff < 0` means empty, `diff > 0` spins forever). -/
def mpmcTryDequeue (r : Ring α) : Option (Bool × Option α × Ring α) :=
  if r.seq (r.slotIdx r.head) = r.head + 1 then
    some (true, r.storage (r.slotIdx r.head),
      { r with
        storage := Function.update r.storage (r.slotIdx r.head) none
        seq := Function.update r.seq (r.slotIdx r.head) (r.head + r.capacity)
        head := r.head + 1 })
  else if r.seq (r.slotIdx r.head) < r.head + 1 then
    some (false, none, r)
  else none

/-- Publication loop of `RingMPMC::enqueue_many` (both the span and the
pointer overload run the same loop): for each reserved logical index, wait
for `seq == idx` and then publish the item.  Sequentially the spin wait
either passes immediately or never ends (`none`). -/
def enqueueManyGo (r : Ring α) (idx : Nat) : List α → Option (Ring α)
  | [] => some r
  | v :: rest =>
    if r.seq (r.slotIdx idx) = idx then
      enqueueManyGo
        { r with
          storage := Function.update r.storage (r.slotIdx idx) (some v)
          seq := Function.update r.seq (r.slotIdx idx) (idx + 1) }
        (idx + 1) rest
    else none

/-- `RingMPMC::enqueue_many` (span and pointer overloads share this
algorithm): return 0 for an empty batch, clamp the batch to `capacity`
(the C++ local `want`, inlined here), reserve the block with one
`fetch_add` on `tail`, then publish each reserved slot in order.  On
completion the returned count is `want`. -/
def enqueueMany (r : Ring α) (items : List α) : Option (Nat × Ring α) :=
  if items.length = 0 then some (0, r)
  else
    match
      enqueueManyGo
        { r with tail := r.tail + (if items.length > r.capacity then r.capacity else items.length) }
        r.tail
        (items.take (if items.length > r.capacity then r.capacity else items.length))
    with
    | some r2 => some ((if items.length > r.capacity then r.capacity else items.length), r2)
    | none => none

/-- Consume loop of the span overload of `RingMPMC::dequeue_many`: for each
reserved logical index, wait for `seq == idx + 1`, then move the payload out
and free the slot with `seq = idx + capacity`. -/
def dequeueManyGo (r : Ring α) (idx : Nat) : Nat → Option (List (Option α) × Ring α)
  | 0 => some ([], r)
  | k + 1 =>
    if r.seq (r.slotIdx idx) = idx + 1 then
      match
        dequeueManyGo
          { r with
            storage := Function.update r.storage (r.slotIdx idx) none
            seq := Function.update r.seq (r.slotIdx idx) (idx + r.capacity) }
          (idx + 1) k
      with
      | some (outs, r2) => some (r.storage (r.slotIdx idx) :: outs, r2)
      | none => none
    else none

/-- Span overload `RingMPMC::dequeue_many(std::span<T>)`: clamp to capacity,
reserve the block with one `fetch_add` on `head`, then wait for and consume
each reserved slot.  The returned list is the filled prefix of `out`; on
completion the C++ call returns `want`, the length of that list. -/
def dequeueManySpan (r : Ring α) (n : Nat) : Option (List (Option α) × Ring α) :=
  if n = 0 then some ([], r)
  else
    dequeueManyGo
      { r with head := r.head + (if n > r.capacity then r.capacity else n) }
      r.head (if n > r.capacity then r.capacity else n)

/-- Scan of the pointer overload of `RingMPMC::dequeue_many`: length of the
contiguous run of published slots starting at logical index `idx`, looking at
most `k` slots ahead. -/
def readyFrom (r : Ring α) (idx : Nat) : Nat → Nat
  | 0 => 0
  | k + 1 =>
    if r.seq (r.slotIdx idx) = idx + 1 then readyFrom r (idx + 1) k + 1 else 0

/-- Consume loop of the pointer overload of `RingMPMC::dequeue_many`: the
`ready` slots are already known to be published, so each is moved out and
freed without waiting. -/
def consumeGo (r : Ring α) (idx : Nat) : Nat → List (Option α) × Ring α
  | 0 => ([], r)
  | k + 1 =>
    let rest :=
      consumeGo
        { r with
          storage := Function.update r.storage (r.slotIdx idx) none
          seq := Function.update r.seq (r.slotIdx idx) (idx + r.capacity) }
        (idx + 1) k
    (r.storage (r.slotIdx idx) :: rest.1, rest.2)

/-- Pointer overload `RingMPMC::dequeue_many(T*, n)`: clamp to capacity,
snapshot `head`, count the contiguous ready run, return 0 with the state
untouched when nothing is ready, otherwise claim exactly the run with a CAS
on `head` (which succeeds on the first attempt in a sequential execution)
and consume the claimed slots.  This version is total: it never spins. -/
def dequeueManyPtr (r : Ring α) (n : Nat) : List (Option α) × Ring α :=
  if n = 0 then ([], r)
  else
    if readyFrom r r.head (if n > r.capacity then r.capacity else n) = 0 then ([], r)
    else
      consumeGo
        { r with head := r.head + readyFrom r r.head (if n > r.capacity then r.capacity else n) }
        r.head
        (readyFrom r r.head (if n > r.capacity then r.capacity else n))

/-- `size()` of either variant: the 64-bit difference `tail - head` of two
relaxed loads, cast to `size_t`.  On the modelled no-wrap domain, with
`head ≤ tail`, the machine computation equals this `Nat` subtraction. -/
def Ring.size (r : Ring α) : Nat :=
  r.tail - r.head

/-- One completed call on a ring, for counting successful operations: the
single-item calls of both variants and the three batch entry points.  The
deadline wrappers `enqueue_until` / `dequeue_until` only ever change state
through the single-item calls, so they are covered by these. -/
inductive Op (α : Type) where
  | spscEnq (v : α)
  | spscDeq
  | mpmcEnq (v : α)
  | mpmcDeq
  | enqMany (items : List α)
  | deqManySpan (n : Nat)
  | deqManyPtr (n : Nat)

/-- Apply one operation; `some (r', e, d)` is the state after a completed
call together with the number of items it reported enqueued and dequeued,
`none` means the call never returns in a sequential execution. -/
def applyOp (r : Ring α) : Op α → Option (Ring α × Nat × Nat)
  | .spscEnq v =>
    some ((spscTryEnqueue r v).2, if (spscTryEnqueue r v).1 then 1 else 0, 0)
  | .spscDeq =>
    some ((spscTryDequeue r).2.2, 0, if (spscTryDequeue r).1 then 1 else 0)
  | .mpmcEnq v =>
    (mpmcTryEnqueue r v).map fun p => (p.2, if p.1 then 1 else 0, 0)
  | .mpmcDeq =>
    (mpmcTryDequeue r).map fun p => (p.2.2, 0, if p.1 then 1 else 0)
  | .enqMany items =>
    (enqueueMany r items).map fun p => (p.2, p.1, 0)
  | .deqManySpan n =>
    (dequeueManySpan r n).map fun p => (p.2, 0, p.1.length)
  | .deqManyPtr n =>
    some ((dequeueManyPtr r n).2, 0, (dequeueManyPtr r n).1.length)

/-- Run a sequence of operations, accumulating the reported enqueue and
dequeue counts; `none` as soon as one call fails to complete. -/
def runOps (r : Ring α) : List (Op α) → Option (Ring α × Nat × Nat)
  | [] => some (r, 0, 0)
  | op :: ops =>
    match applyOp r op with
    | some (r1, e1, d1) =>
      match runOps r1 ops with
      | some (r2, e2, d2) => some (r2, e1 + e2, d1 + d2)
      | none => none
    | none => none

/-- Sequential reachability: any state produced from a freshly constructed
ring by completed calls of either variant.  The constructor argument is a
`size_t` request below `2^63`, the domain on which the `Nat` embedding of
`next_pow2` agrees with the 64-bit computation. -/
inductive Reachable : Ring α → Prop where
  | init (cap : Nat) (hcap : cap ≤ 2 ^ 63) : Reachable (mkRing α cap)
  | step {r r' : Ring α} {op : Op α} {e d : Nat} :
      Reachable r → applyOp r op = some (r', e, d) → Reachable r'

/-- Command alphabet for the SPSC refinement: an enqueue attempt of a value
or a dequeue attempt. -/
inductive SpscCmd (α : Type) where
  | enq (v : α)
  | deq

/-- Observable trace of an SPSC ring under a command sequence: for each
command, the returned flag and (for dequeues) the delivered value. -/
def spscRun (r : Ring α) : List (SpscCmd α) → List (Bool × Option α)
  | [] => []
  | .enq v :: cs =>
    ((spscTryEnqueue r v).1, none) :: spscRun (spscTryEnqueue r v).2 cs
  | .deq :: cs =>
    ((spscTryDequeue r).1, (spscTryDequeue r).2.1) :: spscRun (spscTryDequeue r).2.2 cs

/-- Abstract model for the refinement claim, following the spec's words: a
bounded FIFO list queue of size `cap`; enqueue appends at the back unless
the queue already holds `cap` items. -/
def fifoEnqueue (cap : Nat) (q : List α) (v : α) : Bool × List α :=
  if q.length = cap then (false, q) else (true, q ++ [v])

/-- Abstract model for the refinement claim, following the spec's words:
dequeue removes the front item of the list, failing on an empty queue. -/
def fifoDequeue (q : List α) : Bool × Option α × List α :=
  match q with
  | [] => (false, none, [])
  | x :: xs => (true, some x, xs)

/-- Observable trace of the abstract bounded FIFO queue under a command
sequence. -/
def fifoRun (cap : Nat) (q : List α) : List (SpscCmd α) → List (Bool × Option α)
  | [] => []
  | .enq v :: cs =>
    ((fifoEnqueue cap q v).1, none) :: fifoRun cap (fifoEnqueue cap q v).2 cs
  | .deq :: cs =>
    ((fifoDequeue q).1, (fifoDequeue q).2.1) :: fifoRun cap (fifoDequeue q).2.2 cs

/-- Ticket window invariant: logical indices in `[lo, mid)` hold published
tickets (`seq = index + 1`) and indices in `[mid, lo + capacity)` hold free
tickets (`seq = index`), each at its masked physical slot. -/
def RangeInv (r : Ring α) (lo mid : Nat) : Prop :=
  (∀ j, lo ≤ j → j < mid → r.seq (j % r.capacity) = j + 1) ∧
  (∀ j, mid ≤ j → j < lo + r.capacity → r.seq (j % r.capacity) = j)

/-- State invariant of sequentially reachable rings.  The capacity is a
power of two and the counters never cross.  For capacity at least 2 the
ticket window between `head` and `tail` is intact and the ring is never
overfilled.  A capacity-1 ring degenerates: the written ticket of one
generation coincides with the free ticket of the next, so its single slot
always carries the ticket `tail` and `tail - head` is unbounded. -/
def Inv (r : Ring α) : Prop :=
  (∃ k, r.capacity = 2 ^ k) ∧ r.head ≤ r.tail ∧
  (r.capacity = 1 → r.seq 0 = r.tail) ∧
  (2 ≤ r.capacity → r.tail ≤ r.head + r.capacity ∧ RangeInv r r.head r.tail)

/-- Simulation relation for the SPSC refinement: the ring satisfies the
state invariant, has capacity at least 2, and the queue contents are exactly
the payloads stored between `head` and `tail`, in logical-index order. -/
def SimInv (r : Ring α) (q : List α) : Prop :=
  Inv r ∧ 2 ≤ r.capacity ∧ q.length = r.tail - r.head ∧
  ∀ i, i < q.length → r.storage ((r.head + i) % r.capacity) = q[i]?

/-- Fresh capacity-4 SPSC ring for the boundary scenario of the spec. -/
def scn0 : Ring Nat := mkRing Nat 4

/-- Scenario state after enqueuing 10. -/
def scn1 : Ring Nat := (spscTryEnqueue scn0 10).2

/-- Scenario state after enqueuing 10, 20. -/
def scn2 : Ring Nat := (spscTryEnqueue scn1 20).2

/-- Scenario state after enqueuing 10, 20, 30. -/
def scn3 : Ring Nat := (spscTryEnqueue scn2 30).2

/-- Scenario state after enqueuing 10, 20, 30, 40 (ring is full). -/
def scn4 : Ring Nat := (spscTryEnqueue scn3 40).2

/-- Scenario state after dequeuing once from the full ring. -/
def scn5 : Ring Nat := (spscTryDequeue scn4).2.2

/-- Scenario state after the retried enqueue of 50 succeeds. -/
def scn6 : Ring Nat := (spscTryEnqueue scn5 50).2

/-- Capacity-2 SPSC ring filled by two successful enqueues; used to witness
the failure atomicity claim on a full ring. -/
def full2 : Ring Nat :=
  (spscTryEnqueue (spscTryEnqueue (mkRing Nat 2) 1).2 2).2

theorem window_mod_inj {c lo j1 j2 : Nat} (_hc : 0 < c)
    (h1l : lo ≤ j1) (h1u : j1 < lo + c) (h2l : lo ≤ j2) (h2u : j2 < lo + c)
    (hm : j1 % c = j2 % c) : j1 = j2 := by
  rcases Nat.le_total j1 j2 with hle | hle
  · have hz : (j2 - j1) % c = 0 := Nat.sub_mod_eq_zero_of_mod_eq hm.symm
    have hlt : j2 - j1 < c := by omega
    rw [Nat.mod_eq_of_lt hlt] at hz
    omega
  · have hz : (j1 - j2) % c = 0 := Nat.sub_mod_eq_zero_of_mod_eq hm
    have hlt : j1 - j2 < c := by omega
    rw [Nat.mod_eq_of_lt hlt] at hz
    omega

theorem slotIdx_eq_mod (r : Ring α) {k : Nat} (hc : r.capacity = 2 ^ k) (idx : Nat) :
    r.slotIdx idx = idx % r.capacity := by
  rw [Ring.slotIdx, hc, Nat.and_pow_two_sub_one_eq_mod]

/-- Updating the ticket of the physical slot of logical index `j0` does not
change the ticket seen at the physical slot of a different logical index `j`
from the same `capacity`-wide window. -/
theorem update_seq_ne {β : Type} (f : Nat → β) (x : β) {c lo j j0 : Nat} (hc : 0 < c)
    (hjl : lo ≤ j) (hju : j < lo + c) (h0l : lo ≤ j0) (h0u : j0 < lo + c) (hne : j ≠ j0) :
    Function.update f (j0 % c) x (j % c) = f (j % c) :=
  Function.update_noteq (fun hmod => hne (window_mod_inj hc hjl hju h0l h0u hmod)) x f

/-- Every physical slot has exactly one logical index in any window of
`capacity` consecutive logical indices. -/
theorem exists_window_rep {c h p : Nat} (hc : 0 < c) (hp : p < c) :
    ∃ j, h ≤ j ∧ j < h + c ∧ j % c = p := by
  have hdm : c * (h / c) + h % c = h := Nat.div_add_mod h c
  have hmc : h % c < c := Nat.mod_lt h hc
  by_cases hps : h % c ≤ p
  · refine ⟨c * (h / c) + p, by omega, by omega, ?_⟩
    rw [Nat.mul_add_mod]
    exact Nat.mod_eq_of_lt hp
  · refine ⟨c * (h / c) + c + p, by omega, by omega, ?_⟩
    have he : c * (h / c) + c + p = c * (h / c + 1) + p := by ring
    rw [he, Nat.mul_add_mod]
    exact Nat.mod_eq_of_lt hp

theorem cap_one_or_ge_two {r : Ring α} (h : ∃ k, r.capacity = 2 ^ k) :
    r.capacity = 1 ∨ 2 ≤ r.capacity := by
  obtain ⟨k, hk⟩ := h
  cases k with
  | zero => left; simpa using hk
  | succ m =>
    right
    have h2 : 2 ^ 1 ≤ 2 ^ (m + 1) := Nat.pow_le_pow_right (by omega) (by omega)
    omega

theorem cap_pos {r : Ring α} (h : ∃ k, r.capacity = 2 ^ k) : 0 < r.capacity := by
  obtain ⟨k, hk⟩ := h
  have := Nat.pos_pow_of_pos k (show 0 < 2 by omega)
  omega

/-- Under the invariant (capacity at least 2), the producer-side ticket test
passes exactly when the ring is not full. -/
theorem seq_tail_of_inv {r : Ring α} (hInv : Inv r) (h2 : 2 ≤ r.capacity) :
    r.seq (r.slotIdx r.tail) = r.tail ↔ r.tail < r.head + r.capacity := by
  obtain ⟨⟨k, hc⟩, hht, _, hbig⟩ := hInv
  obtain ⟨htc, hw, hf⟩ := hbig h2
  rw [slotIdx_eq_mod r hc]
  constructor
  · intro hseq
    by_contra hlt
    have hte : r.tail = r.head + r.capacity := by omega
    have hmod : r.tail % r.capacity = r.head % r.capacity := by
      rw [hte, Nat.add_mod_right]
    rw [hmod] at hseq
    have hwh : r.seq (r.head % r.capacity) = r.head + 1 := hw r.head (le_refl _) (by omega)
    omega
  · intro hlt
    exact hf r.tail (le_refl _) hlt

/-- Under the invariant (capacity at least 2), the consumer-side ticket test
passes exactly when the ring is not empty. -/
theorem seq_head_of_inv {r : Ring α} (hInv : Inv r) (h2 : 2 ≤ r.capacity) :
    r.seq (r.slotIdx r.head) = r.head + 1 ↔ r.head < r.tail := by
  obtain ⟨⟨k, hc⟩, hht, _, hbig⟩ := hInv
  obtain ⟨htc, hw, hf⟩ := hbig h2
  rw [slotIdx_eq_mod r hc]
  constructor
  · intro hseq
    by_contra hlt
    have hte : r.head = r.tail := by omega
    have hfh : r.seq (r.head % r.capacity) = r.head := hf r.head (by omega) (by omega)
    omega
  · intro hlt
    exact hw r.head (le_refl _) hlt

/-- Invariant preservation for a successful single-slot publish at `tail`
(the success path shared by `RingSPSC::try_enqueue` and
`RingMPMC::try_enqueue`). -/
theorem inv_enq_update {r : Ring α} (hInv : Inv r)
    (hseq : r.seq (r.slotIdx r.tail) = r.tail) (v : α) :
    Inv { r with
      storage := Function.update r.storage (r.slotIdx r.tail) (some v)
      seq := Function.update r.seq (r.slotIdx r.tail) (r.tail + 1)
      tail := r.tail + 1 } := by
  obtain ⟨⟨k, hc⟩, hht, hone, hbig⟩ := hInv
  refine ⟨⟨k, hc⟩, ?_, ?_, ?_⟩
  · show r.head ≤ r.tail + 1
    omega
  · intro h1
    have h1' : r.capacity = 1 := h1
    have hz : r.slotIdx r.tail = 0 := by
      show r.tail &&& (r.capacity - 1) = 0
      rw [h1']
      simp
    show Function.update r.seq (r.slotIdx r.tail) (r.tail + 1) 0 = r.tail + 1
    rw [hz, Function.update_same]
  · intro h2
    have h2' : 2 ≤ r.capacity := h2
    obtain ⟨htc, hw, hf⟩ := hbig h2'
    have hcpos : 0 < r.capacity := by omega
    have htlt : r.tail < r.head + r.capacity :=
      (seq_tail_of_inv ⟨⟨k, hc⟩, hht, hone, hbig⟩ h2').mp hseq
    refine ⟨?_, ?_, ?_⟩
    · show r.tail + 1 ≤ r.head + r.capacity
      omega
    · intro j hj1 hj2
      have hj1' : r.head ≤ j := hj1
      have hj2' : j < r.tail + 1 := hj2
      show Function.update r.seq (r.slotIdx r.tail) (r.tail + 1) (j % r.capacity) = j + 1
      rw [slotIdx_eq_mod r hc]
      by_cases hjt : j = r.tail
      · subst hjt
        rw [Function.update_same]
      · rw [update_seq_ne r.seq _ hcpos hj1' (by omega) hht (by omega) hjt]
        exact hw j hj1' (by omega)
    · intro j hj1 hj2
      have hj1' : r.tail + 1 ≤ j := hj1
      have hj2' : j < r.head + r.capacity := hj2
      show Function.update r.seq (r.slotIdx r.tail) (r.tail + 1) (j % r.capacity) = j
      rw [slotIdx_eq_mod r hc]
      rw [update_seq_ne r.seq _ hcpos (by omega) hj2' hht (by omega) (by omega)]
      exact hf j (by omega) hj2'

/-- Invariant preservation for a successful single-slot consume at `head`
(the success path shared by `RingSPSC::try_dequeue` and
`RingMPMC::try_dequeue`). -/
theorem inv_deq_update {r : Ring α} (hInv : Inv r)
    (hseq : r.seq (r.slotIdx r.head) = r.head + 1) :
    Inv { r with
      storage := Function.update r.storage (r.slotIdx r.head) none
      seq := Function.update r.seq (r.slotIdx r.head) (r.head + r.capacity)
      head := r.head + 1 } := by
  obtain ⟨⟨k, hc⟩, hht, hone, hbig⟩ := hInv
  rcases cap_one_or_ge_two ⟨k, hc⟩ with h1 | h2
  · have hz : r.slotIdx r.head = 0 := by
      show r.head &&& (r.capacity - 1) = 0
      rw [h1]
      simp
    have hts : r.tail = r.head + 1 := by
      have := hone h1
      rw [hz] at hseq
      omega
    refine ⟨⟨k, hc⟩, ?_, ?_, ?_⟩
    · show r.head + 1 ≤ r.tail
      omega
    · intro _
      show Function.update r.seq (r.slotIdx r.head) (r.head + r.capacity) 0 = r.tail
      rw [hz, Function.update_same, h1, hts]
    · intro hcon
      have hcon' : 2 ≤ r.capacity := hcon
      omega
  · obtain ⟨htc, hw, hf⟩ := hbig h2
    have hcpos : 0 < r.capacity := by omega
    have hhlt : r.head < r.tail :=
      (seq_head_of_inv ⟨⟨k, hc⟩, hht, hone, hbig⟩ h2).mp hseq
    refine ⟨⟨k, hc⟩, ?_, ?_, ?_⟩
    · show r.head + 1 ≤ r.tail
      omega
    · intro h1
      have h1' : r.capacity = 1 := h1
      omega
    · intro _
      refine ⟨?_, ?_, ?_⟩
      · show r.tail ≤ r.head + 1 + r.capacity
        omega
      · intro j hj1 hj2
        have hj1' : r.head + 1 ≤ j := hj1
        have hj2' : j < r.tail := hj2
        show Function.update r.seq (r.slotIdx r.head) (r.head + r.capacity) (j % r.capacity) = j + 1
        rw [slotIdx_eq_mod r hc]
        rw [update_seq_ne r.seq _ hcpos (by omega) (by omega) (le_refl _) (by omega) (by omega)]
        exact hw j (by omega) hj2'
      · intro j hj1 hj2
        have hj1' : r.tail ≤ j := hj1
        have hj2' : j < r.head + 1 + r.capacity := hj2
        show Function.update r.seq (r.slotIdx r.head) (r.head + r.capacity) (j % r.capacity) = j
        rw [slotIdx_eq_mod r hc]
        by_cases hjc : j = r.head + r.capacity
        · have hmod : j % r.capacity = r.head % r.capacity := by
            rw [hjc, Nat.add_mod_right]
          rw [hmod, Function.update_same, hjc]
        · rw [update_seq_ne r.seq _ hcpos (by omega) (by omega) (le_refl _) (by omega) (by omega)]
          exact hf j hj1' (by omega)

theorem inv_spscTryEnqueue {r : Ring α} (hInv : Inv r) (v : α) :
    Inv (spscTryEnqueue r v).2 := by
  rw [spscTryEnqueue]
  split
  · exact inv_enq_update hInv ‹_› v
  · exact hInv

theorem inv_spscTryDequeue {r : Ring α} (hInv : Inv r) :
    Inv (spscTryDequeue r).2.2 := by
  rw [spscTryDequeue]
  split
  · exact inv_deq_update hInv ‹_›
  · exact hInv

theorem inv_mpmcTryEnqueue {r : Ring α} {v : α} {p : Bool × Ring α} (hInv : Inv r)
    (h : mpmcTryEnqueue r v = some p) : Inv p.2 := by
  rw [mpmcTryEnqueue] at h
  split at h
  · obtain rfl := Option.some.inj h
    exact inv_enq_update hInv ‹_› v
  · split at h
    · obtain rfl := Option.some.inj h
      exact hInv
    · exact absurd h (by simp)

theorem inv_mpmcTryDequeue {r : Ring α} {p : Bool × Option α × Ring α} (hInv : Inv r)
    (h : mpmcTryDequeue r = some p) : Inv p.2.2 := by
  rw [mpmcTryDequeue] at h
  split at h
  · obtain rfl := Option.some.inj h
    exact inv_deq_update hInv ‹_›
  · split at h
    · obtain rfl := Option.some.inj h
      exact hInv
    · exact absurd h (by simp)

/-- Invariant preservation along the publish loop of `enqueue_many`, for
capacity at least 2.  `idx` is the next reserved logical index; `tail` was
already advanced by the whole reservation. -/
theorem inv_enqueueManyGo_ge_two {α : Type} :
    ∀ (items : List α) (r : Ring α) (idx : Nat) (r2 : Ring α) (k : Nat),
      r.capacity = 2 ^ k → 2 ≤ r.capacity →
      r.head ≤ idx → idx ≤ r.head + r.capacity →
      r.tail = idx + items.length →
      RangeInv r r.head idx →
      enqueueManyGo r idx items = some r2 → Inv r2 := by
  intro items
  induction items with
  | nil =>
    intro r idx r2 k hc h2 hhi hic ht hri heq
    rw [enqueueManyGo] at heq
    obtain rfl := Option.some.inj heq
    simp only [List.length_nil, Nat.add_zero] at ht
    refine ⟨⟨k, hc⟩, by omega, by omega, fun _ => ⟨by omega, ?_, ?_⟩⟩
    · intro j hj1 hj2
      exact hri.1 j hj1 (by omega)
    · intro j hj1 hj2
      exact hri.2 j (by omega) hj2
  | cons v rest ih =>
    intro r idx r2 k hc h2 hhi hic ht hri heq
    rw [enqueueManyGo] at heq
    split at heq
    case isFalse => exact absurd heq (by simp)
    case isTrue hseq =>
      have hcpos : 0 < r.capacity := by omega
      rw [slotIdx_eq_mod r hc] at hseq
      have hilt : idx < r.head + r.capacity := by
        by_contra hcon
        have hie : idx = r.head + r.capacity := by omega
        have hmod : idx % r.capacity = r.head % r.capacity := by
          rw [hie, Nat.add_mod_right]
        have hwh : r.seq (r.head % r.capacity) = r.head + 1 :=
          hri.1 r.head (le_refl _) (by omega)
        rw [hmod, hwh] at hseq
        omega
      simp only [List.length_cons] at ht
      refine ih { r with
          storage := Function.update r.storage (r.slotIdx idx) (some v)
          seq := Function.update r.seq (r.slotIdx idx) (idx + 1) }
        (idx + 1) r2 k hc h2 ?_ ?_ ?_ ⟨?_, ?_⟩ heq
      · show r.head ≤ idx + 1
        omega
      · show idx + 1 ≤ r.head + r.capacity
        omega
      · show r.tail = idx + 1 + rest.length
        omega
      · intro j hj1 hj2
        have hj1' : r.head ≤ j := hj1
        have hj2' : j < idx + 1 := hj2
        show Function.update r.seq (r.slotIdx idx) (idx + 1) (j % r.capacity) = j + 1
        rw [slotIdx_eq_mod r hc]
        by_cases hji : j = idx
        · subst hji
          rw [Function.update_same]
        · rw [update_seq_ne r.seq _ hcpos hj1' (by omega) hhi (by omega) hji]
          exact hri.1 j hj1' (by omega)
      · intro j hj1 hj2
        have hj1' : idx + 1 ≤ j := hj1
        have hj2' : j < r.head + r.capacity := hj2
        show Function.update r.seq (r.slotIdx idx) (idx + 1) (j % r.capacity) = j
        rw [slotIdx_eq_mod r hc]
        rw [update_seq_ne r.seq _ hcpos (by omega) hj2' hhi (by omega) (by omega)]
        exact hri.2 j (by omega) hj2'

/-- Invariant preservation along the publish loop of `enqueue_many` for a
capacity-1 ring: the single slot's ticket tracks the publish index, which
ends at the pre-advanced `tail`. -/
theorem inv_enqueueManyGo_one {α : Type} :
    ∀ (items : List α) (r : Ring α) (idx : Nat) (r2 : Ring α),
      r.capacity = 1 → r.head ≤ idx →
      r.tail = idx + items.length →
      r.seq 0 = idx →
      enqueueManyGo r idx items = some r2 → Inv r2 := by
  intro items
  induction items with
  | nil =>
    intro r idx r2 hc hhi ht hs heq
    rw [enqueueManyGo] at heq
    obtain rfl := Option.some.inj heq
    exact ⟨⟨0, by simpa using hc⟩, by omega, fun _ => by simp at ht; omega, fun hcon => by omega⟩
  | cons v rest ih =>
    intro r idx r2 hc hhi ht hs heq
    rw [enqueueManyGo] at heq
    have hz : r.slotIdx idx = 0 := by
      show idx &&& (r.capacity - 1) = 0
      rw [hc]
      simp
    split at heq
    case isFalse hne => exact absurd (by rw [hz]; exact hs) hne
    case isTrue hseq =>
      simp only [List.length_cons] at ht
      refine ih { r with
          storage := Function.update r.storage (r.slotIdx idx) (some v)
          seq := Function.update r.seq (r.slotIdx idx) (idx + 1) }
        (idx + 1) r2 hc ?_ ?_ ?_ heq
      · show r.head ≤ idx + 1
        omega
      · show r.tail = idx + 1 + rest.length
        omega
      · show Function.update r.seq (r.slotIdx idx) (idx + 1) 0 = idx + 1
        rw [hz, Function.update_same]

/-- Invariant preservation along the consume loop of the span overload of
`dequeue_many`, for capacity at least 2.  `idx` is the next reserved logical
index; `head` was already advanced by the whole reservation of `k` slots. -/
theorem inv_dequeueManyGo_ge_two {α : Type} :
    ∀ (k : Nat) (r : Ring α) (idx : Nat) (outs : List (Option α)) (r2 : Ring α) (kp : Nat),
      r.capacity = 2 ^ kp → 2 ≤ r.capacity →
      idx ≤ r.tail → r.tail ≤ idx + r.capacity →
      r.head = idx + k →
      RangeInv r idx r.tail →
      dequeueManyGo r idx k = some (outs, r2) → Inv r2 := by
  intro k
  induction k with
  | zero =>
    intro r idx outs r2 kp hc h2 hit htc hh hri heq
    rw [dequeueManyGo] at heq
    obtain h := Prod.mk.injEq .. ▸ Option.some.inj heq
    have hr : r = r2 := congrArg Prod.snd (Option.some.inj heq)
    subst hr
    refine ⟨⟨kp, hc⟩, by omega, by omega, fun _ => ⟨by omega, ?_, ?_⟩⟩
    · intro j hj1 hj2
      exact hri.1 j (by omega) hj2
    · intro j hj1 hj2
      exact hri.2 j hj1 (by omega)
  | succ m ih =>
    intro r idx outs r2 kp hc h2 hit htc hh hri heq
    rw [dequeueManyGo] at heq
    split at heq
    case isFalse => exact absurd heq (by simp)
    case isTrue hseq =>
      have hcpos : 0 < r.capacity := by omega
      rw [slotIdx_eq_mod r hc] at hseq
      have hilt : idx < r.tail := by
        by_contra hcon
        have hie : idx = r.tail := by omega
        have hff : r.seq (idx % r.capacity) = idx := hri.2 idx (by omega) (by omega)
        omega
      rcases hrec : dequeueManyGo
          { r with
            storage := Function.update r.storage (r.slotIdx idx) none
            seq := Function.update r.seq (r.slotIdx idx) (idx + r.capacity) }
          (idx + 1) m with _ | ⟨outs1, r3⟩
      · rw [hrec] at heq
        exact absurd heq (by simp)
      · rw [hrec] at heq
        have hr : r3 = r2 := by
          have := Option.some.inj heq
          exact congrArg Prod.snd this
        subst hr
        refine ih { r with
            storage := Function.update r.storage (r.slotIdx idx) none
            seq := Function.update r.seq (r.slotIdx idx) (idx + r.capacity) }
          (idx + 1) outs1 r3 kp hc h2 ?_ ?_ ?_ ⟨?_, ?_⟩ hrec
        · show idx + 1 ≤ r.tail
          omega
        · show r.tail ≤ idx + 1 + r.capacity
          omega
        · show r.head = idx + 1 + m
          omega
        · intro j hj1 hj2
          have hj1' : idx + 1 ≤ j := hj1
          have hj2' : j < r.tail := hj2
          show Function.update r.seq (r.slotIdx idx) (idx + r.capacity) (j % r.capacity) = j + 1
          rw [slotIdx_eq_mod r hc]
          rw [update_seq_ne r.seq _ hcpos (by omega) (by omega) (le_refl _) (by omega) (by omega)]
          exact hri.1 j (by omega) hj2'
        · intro j hj1 hj2
          have hj1' : r.tail ≤ j := hj1
          have hj2' : j < idx + 1 + r.capacity := hj2
          show Function.update r.seq (r.slotIdx idx) (idx + r.capacity) (j % r.capacity) = j
          rw [slotIdx_eq_mod r hc]
          by_cases hjc : j = idx + r.capacity
          · have hmod : j % r.capacity = idx % r.capacity := by
              rw [hjc, Nat.add_mod_right]
            rw [hmod, Function.update_same, hjc]
          · rw [update_seq_ne r.seq _ hcpos (by omega) (by omega) (le_refl _) (by omega) (by omega)]
            exact hri.2 j hj1' (by omega)

/-- Invariant preservation along the consume loop of the span overload of
`dequeue_many` for a capacity-1 ring. -/
theorem inv_dequeueManyGo_one {α : Type} :
    ∀ (k : Nat) (r : Ring α) (idx : Nat) (outs : List (Option α)) (r2 : Ring α),
      r.capacity = 1 →
      idx ≤ r.tail →
      r.head = idx + k →
      r.seq 0 = r.tail →
      dequeueManyGo r idx k = some (outs, r2) → Inv r2 := by
  intro k
  induction k with
  | zero =>
    intro r idx outs r2 hc hit hh hs heq
    rw [dequeueManyGo] at heq
    have hr : r = r2 := congrArg Prod.snd (Option.some.inj heq)
    subst hr
    exact ⟨⟨0, by simpa using hc⟩, by omega, fun _ => hs, fun hcon => by omega⟩
  | succ m ih =>
    intro r idx outs r2 hc hit hh hs heq
    rw [dequeueManyGo] at heq
    have hz : r.slotIdx idx = 0 := by
      show idx &&& (r.capacity - 1) = 0
      rw [hc]
      simp
    split at heq
    case isFalse => exact absurd heq (by simp)
    case isTrue hseq =>
      rw [hz, hs] at hseq
      rcases hrec : dequeueManyGo
          { r with
            storage := Function.update r.storage (r.slotIdx idx) none
            seq := Function.update r.seq (r.slotIdx idx) (idx + r.capacity) }
          (idx + 1) m with _ | ⟨outs1, r3⟩
      · rw [hrec] at heq
        exact absurd heq (by simp)
      · rw [hrec] at heq
        have hr : r3 = r2 := congrArg Prod.snd (Option.some.inj heq)
        subst hr
        refine ih { r with
            storage := Function.update r.storage (r.slotIdx idx) none
            seq := Function.update r.seq (r.slotIdx idx) (idx + r.capacity) }
          (idx + 1) outs1 r3 hc ?_ ?_ ?_ hrec
        · show idx + 1 ≤ r.tail
          omega
        · show r.head = idx + 1 + m
          omega
        · show Function.update r.seq (r.slotIdx idx) (idx + r.capacity) 0 = r.tail
          rw [hz, Function.update_same, hc]
          omega

/-- Invariant preservation along the consume loop of the pointer overload of
`dequeue_many`, for capacity at least 2: the `k` slots from `idx` are
guaranteed published, `head` was already advanced past them by the CAS. -/
theorem inv_consumeGo_ge_two {α : Type} :
    ∀ (k : Nat) (r : Ring α) (idx : Nat) (kp : Nat),
      r.capacity = 2 ^ kp → 2 ≤ r.capacity →
      idx + k ≤ r.tail → r.tail ≤ idx + r.capacity →
      r.head = idx + k →
      RangeInv r idx r.tail →
      Inv (consumeGo r idx k).2 := by
  intro k
  induction k with
  | zero =>
    intro r idx kp hc h2 hit htc hh hri
    show Inv r
    exact ⟨⟨kp, hc⟩, by omega, by omega,
      fun _ => ⟨by omega, fun j hj1 hj2 => hri.1 j (by omega) hj2,
        fun j hj1 hj2 => hri.2 j hj1 (by omega)⟩⟩
  | succ m ih =>
    intro r idx kp hc h2 hit htc hh hri
    have hcpos : 0 < r.capacity := by omega
    refine ih { r with
        storage := Function.update r.storage (r.slotIdx idx) none
        seq := Function.update r.seq (r.slotIdx idx) (idx + r.capacity) }
      (idx + 1) kp hc h2 ?_ ?_ ?_ ⟨?_, ?_⟩
    · show idx + 1 + m ≤ r.tail
      omega
    · show r.tail ≤ idx + 1 + r.capacity
      omega
    · show r.head = idx + 1 + m
      omega
    · intro j hj1 hj2
      have hj1' : idx + 1 ≤ j := hj1
      have hj2' : j < r.tail := hj2
      show Function.update r.seq (r.slotIdx idx) (idx + r.capacity) (j % r.capacity) = j + 1
      rw [slotIdx_eq_mod r hc]
      rw [update_seq_ne r.seq _ hcpos (by omega) (by omega) (le_refl _) (by omega) (by omega)]
      exact hri.1 j (by omega) hj2'
    · intro j hj1 hj2
      have hj1' : r.tail ≤ j := hj1
      have hj2' : j < idx + 1 + r.capacity := hj2
      show Function.update r.seq (r.slotIdx idx) (idx + r.capacity) (j % r.capacity) = j
      rw [slotIdx_eq_mod r hc]
      by_cases hjc : j = idx + r.capacity
      · have hmod : j % r.capacity = idx % r.capacity := by
          rw [hjc, Nat.add_mod_right]
        rw [hmod, Function.update_same, hjc]
      · rw [update_seq_ne r.seq _ hcpos (by omega) (by omega) (le_refl _) (by omega) (by omega)]
        exact hri.2 j hj1' (by omega)

/-- One or-shift step doubles the window of source bits feeding each output
bit of the smearing cascade. -/
theorem testBit_or_shift {x y w : Nat}
    (hy : ∀ i, y.testBit i = true ↔ ∃ j, j < w ∧ x.testBit (i + j) = true) (i : Nat) :
    (y ||| (y >>> w)).testBit i = true ↔ ∃ j, j < w + w ∧ x.testBit (i + j) = true := by
  rw [Nat.testBit_or, Nat.testBit_shiftRight, Bool.or_eq_true, hy, hy]
  constructor
  · rintro (⟨j, hj, hb⟩ | ⟨j, hj, hb⟩)
    · exact ⟨j, by omega, hb⟩
    · refine ⟨w + j, by omega, ?_⟩
      rw [show i + (w + j) = w + i + j by omega]
      exact hb
  · rintro ⟨j, hj, hb⟩
    by_cases hjw : j < w
    · exact Or.inl ⟨j, hjw, hb⟩
    · refine Or.inr ⟨j - w, by omega, ?_⟩
      rw [show w + i + (j - w) = i + j by omega]
      exact hb

/-- Each output bit of the full cascade is the disjunction of the 64 source
bits at and above it. -/
theorem smear_testBit (x i : Nat) :
    (smear x).testBit i = true ↔ ∃ j, j < 64 ∧ x.testBit (i + j) = true := by
  have h0 : ∀ i, x.testBit i = true ↔ ∃ j, j < 1 ∧ x.testBit (i + j) = true := by
    intro i
    constructor
    · intro hb
      exact ⟨0, by omega, by simpa using hb⟩
    · rintro ⟨j, hj, hb⟩
      have hj0 : j = 0 := by omega
      subst hj0
      simpa using hb
  have h1 := testBit_or_shift h0
  have h2 := testBit_or_shift h1
  have h3 := testBit_or_shift h2
  have h4 := testBit_or_shift h3
  have h5 := testBit_or_shift h4
  have h6 := testBit_or_shift h5
  exact h6 i

/-- The top bit of a positive number is set. -/
theorem testBit_size_sub_one {x : Nat} (h0 : 0 < x) : x.testBit (x.size - 1) = true := by
  have hlt : x < 2 ^ x.size := Nat.lt_size_self x
  have hpos : 0 < x.size := Nat.size_pos.mpr h0
  have hge : 2 ^ (x.size - 1) ≤ x := Nat.lt_size.mp (by omega)
  have hppos : 0 < 2 ^ (x.size - 1) := Nat.pos_pow_of_pos _ (by omega)
  have hdiv : x / 2 ^ (x.size - 1) = 1 := by
    have hle1 : 1 ≤ x / 2 ^ (x.size - 1) := (Nat.one_le_div_iff hppos).mpr hge
    have hlt2 : x / 2 ^ (x.size - 1) < 2 := by
      rw [Nat.div_lt_iff_lt_mul hppos]
      calc x < 2 ^ x.size := hlt
        _ = 2 ^ (x.size - 1) * 2 := by
          rw [← Nat.pow_succ]
          congr 1
          omega
        _ ≤ 2 * 2 ^ (x.size - 1) := by rw [Nat.mul_comm]
    omega
  rw [Nat.testBit_to_div_mod, hdiv]
  rfl

/-- The smearing cascade turns a positive input below `2^64` into the
all-ones pattern of the same bit length. -/
theorem smear_eq {x : Nat} (h0 : 0 < x) (h64 : x < 2 ^ 64) :
    smear x = 2 ^ x.size - 1 := by
  have hsle : x.size ≤ 64 := Nat.size_le.mpr h64
  apply Nat.eq_of_testBit_eq
  intro i
  rw [Nat.testBit_two_pow_sub_one]
  have key : (smear x).testBit i = true ↔ i < x.size := by
    rw [smear_testBit]
    constructor
    · rintro ⟨j, hj, hb⟩
      have h2p : 2 ^ (i + j) ≤ x := by
        by_contra hcon
        rw [Nat.testBit_lt_two_pow (by omega)] at hb
        exact Bool.false_ne_true hb
      have := Nat.lt_size.mpr h2p
      omega
    · intro hi
      refine ⟨x.size - 1 - i, by omega, ?_⟩
      rw [show i + (x.size - 1 - i) = x.size - 1 by omega]
      exact testBit_size_sub_one h0
  cases hb : (smear x).testBit i
  · rw [hb] at key
    simp at key
    simp [key]
  · rw [hb] at key
    simp at key
    simp [key]

/-- `next_pow2` computes a power of two that is at least its input and is
the least such power of two, on the `size_t` domain where the C++
computation does not overflow. -/
theorem next_pow2_spec (x : Nat) (hx : x ≤ 2 ^ 63) :
    ∃ k, next_pow2 x = 2 ^ k ∧ x ≤ 2 ^ k ∧ ∀ m, x ≤ 2 ^ m → 2 ^ k ≤ 2 ^ m := by
  by_cases hx1 : x ≤ 1
  · refine ⟨0, ?_, by omega, fun m _ => Nat.one_le_two_pow⟩
    rw [next_pow2, if_pos hx1]
    rfl
  · have h0 : 0 < x - 1 := by omega
    have h64 : x - 1 < 2 ^ 64 := by
      have : (2 : Nat) ^ 63 < 2 ^ 64 := Nat.pow_lt_pow_right (by omega) (by omega)
      omega
    have hsm := smear_eq h0 h64
    have hpos : 0 < 2 ^ (x - 1).size := Nat.pos_pow_of_pos _ (by omega)
    refine ⟨(x - 1).size, ?_, ?_, ?_⟩
    · rw [next_pow2, if_neg hx1, hsm]
      omega
    · have := Nat.lt_size_self (x - 1)
      omega
    · intro m hm
      apply Nat.pow_le_pow_right (by omega)
      apply Nat.size_le.mpr
      omega

/-- The invariant holds for a freshly constructed ring. -/
theorem inv_mkRing {α : Type} (cap : Nat) (hcap : cap ≤ 2 ^ 63) : Inv (mkRing α cap) := by
  obtain ⟨k, hk, _, _⟩ := next_pow2_spec cap hcap
  refine ⟨⟨k, hk⟩, le_refl _, fun _ => rfl, fun h2 => ⟨?_, ?_, ?_⟩⟩
  · show (0 : Nat) ≤ 0 + next_pow2 cap
    omega
  · intro j hj1 hj2
    have hj2' : j < (0 : Nat) := hj2
    omega
  · intro j hj1 hj2
    have hj2' : j < 0 + next_pow2 cap := hj2
    show j % next_pow2 cap = j
    exact Nat.mod_eq_of_lt (by omega)

/-- The contiguous-ready scan never counts past `tail` (capacity at least
2): the slot at `tail` carries either its free ticket or, in a full ring,
the written ticket of `tail - capacity`, never `tail + 1`. -/
theorem readyFrom_add_le {α : Type} {r : Ring α} {k : Nat}
    (hc : r.capacity = 2 ^ k) (h2 : 2 ≤ r.capacity)
    (htc : r.tail ≤ r.head + r.capacity)
    (hri : RangeInv r r.head r.tail) :
    ∀ (w idx : Nat), r.head ≤ idx → idx ≤ r.tail → idx + readyFrom r idx w ≤ r.tail := by
  intro w
  induction w with
  | zero =>
    intro idx h1 h2'
    rw [readyFrom]
    omega
  | succ m ih =>
    intro idx hhi hit
    rw [readyFrom]
    split
    case isFalse => omega
    case isTrue hseq =>
      rw [slotIdx_eq_mod r hc] at hseq
      have hilt : idx < r.tail := by
        by_contra hcon
        have hie : idx = r.tail := by omega
        by_cases hfull : r.tail < r.head + r.capacity
        · have hff := hri.2 idx (by omega) (by omega)
          omega
        · have hte : r.tail = r.head + r.capacity := by omega
          have hmod : idx % r.capacity = r.head % r.capacity := by
            rw [hie, hte, Nat.add_mod_right]
          have hwh : r.seq (r.head % r.capacity) = r.head + 1 :=
            hri.1 r.head (le_refl _) (by omega)
          rw [hmod, hwh] at hseq
          omega
      have := ih (idx + 1) (by omega) (by omega)
      omega

theorem inv_enqueueMany {α : Type} {r : Ring α} {items : List α} {p : Nat × Ring α}
    (hInv : Inv r) (h : enqueueMany r items = some p) : Inv p.2 := by
  rw [enqueueMany] at h
  split at h
  · obtain rfl := Option.some.inj h
    exact hInv
  · rename_i hlen
    obtain ⟨⟨k, hc⟩, hht, hone, hbig⟩ := hInv
    generalize hW : (if items.length > r.capacity then r.capacity else items.length) = W at h
    have hWcap : W ≤ r.capacity ∧ W ≤ items.length := by
      rw [← hW]
      split <;> omega
    have hTlen : (items.take W).length = W := by
      rw [List.length_take]
      omega
    rcases hgo : enqueueManyGo { r with tail := r.tail + W } r.tail (items.take W)
      with _ | r2
    · rw [hgo] at h
      exact absurd h (by simp)
    · rw [hgo] at h
      obtain rfl := Option.some.inj h
      show Inv r2
      rcases cap_one_or_ge_two ⟨k, hc⟩ with h1 | h2
      · have hW1 : W = 1 := by
          rw [← hW, h1]
          split <;> omega
        subst hW1
        refine inv_enqueueManyGo_one (items.take 1) { r with tail := r.tail + 1 }
          r.tail r2 h1 ?_ ?_ ?_ hgo
        · show r.head ≤ r.tail
          exact hht
        · show r.tail + 1 = r.tail + (items.take 1).length
          omega
        · show r.seq 0 = r.tail
          exact hone h1
      · refine inv_enqueueManyGo_ge_two (items.take W) { r with tail := r.tail + W }
          r.tail r2 k hc h2 ?_ ?_ ?_ ?_ hgo
        · show r.head ≤ r.tail
          exact hht
        · show r.tail ≤ r.head + r.capacity
          exact (hbig h2).1
        · show r.tail + W = r.tail + (items.take W).length
          omega
        · show RangeInv r r.head r.tail
          exact (hbig h2).2

theorem inv_dequeueManySpan {α : Type} {r : Ring α} {n : Nat} {p : List (Option α) × Ring α}
    (hInv : Inv r) (h : dequeueManySpan r n = some p) : Inv p.2 := by
  rw [dequeueManySpan] at h
  split at h
  · obtain rfl := Option.some.inj h
    exact hInv
  · rename_i hn
    obtain ⟨⟨k, hc⟩, hht, hone, hbig⟩ := hInv
    generalize hW : (if n > r.capacity then r.capacity else n) = W at h
    have hWcap : W ≤ r.capacity ∧ 1 ≤ W := by
      have hcpos : 0 < r.capacity := cap_pos ⟨k, hc⟩
      rw [← hW]
      split <;> omega
    obtain ⟨outs, r2⟩ := p
    show Inv r2
    rcases cap_one_or_ge_two ⟨k, hc⟩ with h1 | h2
    · have hW1 : W = 1 := by
        rw [← hW, h1]
        split <;> omega
      subst hW1
      refine inv_dequeueManyGo_one 1 { r with head := r.head + 1 }
        r.head outs r2 h1 ?_ ?_ ?_ h
      · show r.head ≤ r.tail
        exact hht
      · show r.head + 1 = r.head + 1
        rfl
      · show r.seq 0 = r.tail
        exact hone h1
    · refine inv_dequeueManyGo_ge_two W { r with head := r.head + W }
        r.head outs r2 k hc h2 ?_ ?_ ?_ ?_ h
      · show r.head ≤ r.tail
        exact hht
      · show r.tail ≤ r.head + r.capacity
        exact (hbig h2).1
      · show r.head + W = r.head + W
        rfl
      · show RangeInv r r.head r.tail
        exact (hbig h2).2

theorem inv_dequeueManyPtr {α : Type} {r : Ring α} (n : Nat) (hInv : Inv r) :
    Inv (dequeueManyPtr r n).2 := by
  rw [dequeueManyPtr]
  split
  · exact hInv
  · rename_i hn
    obtain ⟨⟨k, hc⟩, hht, hone, hbig⟩ := hInv
    show Inv (if readyFrom r r.head (if n > r.capacity then r.capacity else n) = 0
      then (([] : List (Option α)), r)
      else consumeGo
        { r with head := r.head + readyFrom r r.head (if n > r.capacity then r.capacity else n) }
        r.head (readyFrom r r.head (if n > r.capacity then r.capacity else n))).2
    generalize hW : (if n > r.capacity then r.capacity else n) = W
    have hWcap : W ≤ r.capacity ∧ 1 ≤ W := by
      have hcpos : 0 < r.capacity := cap_pos ⟨k, hc⟩
      rw [← hW]
      split <;> omega
    split
    · exact ⟨⟨k, hc⟩, hht, hone, hbig⟩
    · rename_i hready
      rcases cap_one_or_ge_two ⟨k, hc⟩ with h1 | h2
      · have hW1 : W = 1 := by
          rw [← hW, h1]
          split <;> omega
        subst hW1
        have hz : r.slotIdx r.head = 0 := by
          show r.head &&& (r.capacity - 1) = 0
          rw [h1]
          simp
        have hcond : r.seq (r.slotIdx r.head) = r.head + 1 := by
          by_contra hcon
          rw [readyFrom, if_neg hcon] at hready
          exact hready rfl
        have hts : r.tail = r.head + 1 := by
          rw [hz] at hcond
          have := hone h1
          omega
        have hr1 : readyFrom r r.head 1 = 1 := by
          rw [readyFrom, if_pos hcond, readyFrom]
        rw [hr1]
        show Inv { r with
          head := r.head + 1
          storage := Function.update r.storage (r.slotIdx r.head) none
          seq := Function.update r.seq (r.slotIdx r.head) (r.head + r.capacity) }
        refine ⟨⟨k, hc⟩, ?_, ?_, ?_⟩
        · show r.head + 1 ≤ r.tail
          omega
        · intro _
          show Function.update r.seq (r.slotIdx r.head) (r.head + r.capacity) 0 = r.tail
          rw [hz, Function.update_same, h1]
          omega
        · intro hcon
          have hcon' : 2 ≤ r.capacity := hcon
          omega
      · have hrle : r.head + readyFrom r r.head W ≤ r.tail :=
          readyFrom_add_le hc h2 (hbig h2).1 (hbig h2).2 W r.head (le_refl _) hht
        refine inv_consumeGo_ge_two (readyFrom r r.head W)
          { r with head := r.head + readyFrom r r.head W } r.head k hc h2 ?_ ?_ ?_ ?_
        · show r.head + readyFrom r r.head W ≤ r.tail
          exact hrle
        · show r.tail ≤ r.head + r.capacity
          exact (hbig h2).1
        · show r.head + readyFrom r r.head W = r.head + readyFrom r r.head W
          rfl
        · show RangeInv r r.head r.tail
          exact (hbig h2).2

theorem inv_applyOp {α : Type} {r : Ring α} {op : Op α} {res : Ring α × Nat × Nat}
    (hInv : Inv r) (h : applyOp r op = some res) : Inv res.1 := by
  cases op with
  | spscEnq v =>
    rw [applyOp] at h
    obtain rfl := Option.some.inj h
    exact inv_spscTryEnqueue hInv v
  | spscDeq =>
    rw [applyOp] at h
    obtain rfl := Option.some.inj h
    exact inv_spscTryDequeue hInv
  | mpmcEnq v =>
    rw [applyOp, Option.map_eq_some'] at h
    obtain ⟨q, hq, rfl⟩ := h
    exact inv_mpmcTryEnqueue hInv hq
  | mpmcDeq =>
    rw [applyOp, Option.map_eq_some'] at h
    obtain ⟨q, hq, rfl⟩ := h
    exact inv_mpmcTryDequeue hInv hq
  | enqMany items =>
    rw [applyOp, Option.map_eq_some'] at h
    obtain ⟨q, hq, rfl⟩ := h
    exact inv_enqueueMany hInv hq
  | deqManySpan n =>
    rw [applyOp, Option.map_eq_some'] at h
    obtain ⟨q, hq, rfl⟩ := h
    exact inv_dequeueManySpan hInv hq
  | deqManyPtr n =>
    rw [applyOp] at h
    obtain rfl := Option.some.inj h
    exact inv_dequeueManyPtr n hInv

/-- Every sequentially reachable state satisfies the state invariant. -/
theorem inv_reachable {α : Type} {r : Ring α} (h : Reachable r) : Inv r := by
  induction h with
  | init cap hcap => exact inv_mkRing cap hcap
  | step _ hop ih => exact inv_applyOp ih hop

theorem spscTryEnqueue_obs (r : Ring α) (v : α) :
    (spscTryEnqueue r v).2.head = r.head ∧ (spscTryEnqueue r v).2.capacity = r.capacity ∧
    (spscTryEnqueue r v).2.tail = r.tail + (if (spscTryEnqueue r v).1 then 1 else 0) := by
  rw [spscTryEnqueue]
  split <;> simp

theorem spscTryDequeue_obs (r : Ring α) :
    (spscTryDequeue r).2.2.tail = r.tail ∧ (spscTryDequeue r).2.2.capacity = r.capacity ∧
    (spscTryDequeue r).2.2.head = r.head + (if (spscTryDequeue r).1 then 1 else 0) := by
  rw [spscTryDequeue]
  split <;> simp

theorem mpmcTryEnqueue_obs {r : Ring α} {v : α} {p : Bool × Ring α}
    (h : mpmcTryEnqueue r v = some p) :
    p.2.head = r.head ∧ p.2.capacity = r.capacity ∧
    p.2.tail = r.tail + (if p.1 then 1 else 0) := by
  rw [mpmcTryEnqueue] at h
  split at h
  · obtain rfl := Option.some.inj h
    simp
  · split at h
    · obtain rfl := Option.some.inj h
      simp
    · exact absurd h (by simp)

theorem mpmcTryDequeue_obs {r : Ring α} {p : Bool × Option α × Ring α}
    (h : mpmcTryDequeue r = some p) :
    p.2.2.tail = r.tail ∧ p.2.2.capacity = r.capacity ∧
    p.2.2.head = r.head + (if p.1 then 1 else 0) := by
  rw [mpmcTryDequeue] at h
  split at h
  · obtain rfl := Option.some.inj h
    simp
  · split at h
    · obtain rfl := Option.some.inj h
      simp
    · exact absurd h (by simp)

theorem enqueueManyGo_counters {α : Type} :
    ∀ (items : List α) (r : Ring α) (idx : Nat) (r2 : Ring α),
      enqueueManyGo r idx items = some r2 →
      r2.tail = r.tail ∧ r2.head = r.head ∧ r2.capacity = r.capacity := by
  intro items
  induction items with
  | nil =>
    intro r idx r2 heq
    rw [enqueueManyGo] at heq
    obtain rfl := Option.some.inj heq
    exact ⟨rfl, rfl, rfl⟩
  | cons v rest ih =>
    intro r idx r2 heq
    rw [enqueueManyGo] at heq
    split at heq
    case isFalse => exact absurd heq (by simp)
    case isTrue hseq =>
      exact ih { r with
          storage := Function.update r.storage (r.slotIdx idx) (some v)
          seq := Function.update r.seq (r.slotIdx idx) (idx + 1) }
        (idx + 1) r2 heq

theorem dequeueManyGo_counters {α : Type} :
    ∀ (k : Nat) (r : Ring α) (idx : Nat) (outs : List (Option α)) (r2 : Ring α),
      dequeueManyGo r idx k = some (outs, r2) →
      r2.tail = r.tail ∧ r2.head = r.head ∧ r2.capacity = r.capacity ∧ outs.length = k := by
  intro k
  induction k with
  | zero =>
    intro r idx outs r2 heq
    rw [dequeueManyGo] at heq
    have hpair := Option.some.inj heq
    injection hpair with h1 h2
    subst h1
    subst h2
    exact ⟨rfl, rfl, rfl, rfl⟩
  | succ m ih =>
    intro r idx outs r2 heq
    rw [dequeueManyGo] at heq
    split at heq
    case isFalse => exact absurd heq (by simp)
    case isTrue hseq =>
      rcases hrec : dequeueManyGo
          { r with
            storage := Function.update r.storage (r.slotIdx idx) none
            seq := Function.update r.seq (r.slotIdx idx) (idx + r.capacity) }
          (idx + 1) m with _ | ⟨outs1, r3⟩
      · rw [hrec] at heq
        exact absurd heq (by simp)
      · rw [hrec] at heq
        have hpair := Option.some.inj heq
        injection hpair with h1 h2
        subst h1
        subst h2
        obtain ⟨ht, hh, hcap, hlen⟩ := ih _ (idx + 1) outs1 r3 hrec
        refine ⟨ht, hh, hcap, ?_⟩
        simp [hlen]

theorem consumeGo_obs {α : Type} :
    ∀ (k : Nat) (r : Ring α) (idx : Nat),
      (consumeGo r idx k).1.length = k ∧ (consumeGo r idx k).2.head = r.head ∧
      (consumeGo r idx k).2.tail = r.tail ∧ (consumeGo r idx k).2.capacity = r.capacity := by
  intro k
  induction k with
  | zero =>
    intro r idx
    exact ⟨rfl, rfl, rfl, rfl⟩
  | succ m ih =>
    intro r idx
    obtain ⟨hlen, hh, ht, hcap⟩ := ih
      { r with
        storage := Function.update r.storage (r.slotIdx idx) none
        seq := Function.update r.seq (r.slotIdx idx) (idx + r.capacity) }
      (idx + 1)
    refine ⟨?_, hh, ht, hcap⟩
    show (consumeGo _ (idx + 1) m).1.length + 1 = m + 1
    omega

theorem enqueueMany_counters {α : Type} {r : Ring α} {items : List α} {p : Nat × Ring α}
    (h : enqueueMany r items = some p) :
    p.2.tail = r.tail + p.1 ∧ p.2.head = r.head ∧ p.2.capacity = r.capacity ∧
    p.1 = (if items.length > r.capacity then r.capacity else items.length) := by
  rw [enqueueMany] at h
  split at h
  · rename_i hlen
    obtain rfl := Option.some.inj h
    refine ⟨by simp, rfl, rfl, ?_⟩
    show (0 : Nat) = if items.length > r.capacity then r.capacity else items.length
    rw [hlen]
    split <;> omega
  · rcases hgo : enqueueManyGo
        { r with tail := r.tail + (if items.length > r.capacity then r.capacity else items.length) }
        r.tail (items.take (if items.length > r.capacity then r.capacity else items.length))
      with _ | r2
    · rw [hgo] at h
      exact absurd h (by simp)
    · rw [hgo] at h
      obtain rfl := Option.some.inj h
      obtain ⟨ht, hh, hcap⟩ := enqueueManyGo_counters _ _ r.tail r2 hgo
      exact ⟨ht, hh, hcap, rfl⟩

theorem dequeueManySpan_counters {α : Type} {r : Ring α} {n : Nat}
    {p : List (Option α) × Ring α} (h : dequeueManySpan r n = some p) :
    p.2.head = r.head + p.1.length ∧ p.2.tail = r.tail ∧ p.2.capacity = r.capacity := by
  rw [dequeueManySpan] at h
  split at h
  · obtain rfl := Option.some.inj h
    exact ⟨by simp, rfl, rfl⟩
  · obtain ⟨outs, r2⟩ := p
    obtain ⟨ht, hh, hcap, hlen⟩ := dequeueManyGo_counters _ _ r.head outs r2 h
    exact ⟨by rw [hh, hlen], ht, hcap⟩

theorem dequeueManyPtr_counters {α : Type} (r : Ring α) (n : Nat) :
    (dequeueManyPtr r n).2.head = r.head + (dequeueManyPtr r n).1.length ∧
    (dequeueManyPtr r n).2.tail = r.tail ∧ (dequeueManyPtr r n).2.capacity = r.capacity := by
  rw [dequeueManyPtr]
  split
  · simp
  · generalize (if n > r.capacity then r.capacity else n) = W
    split
    · simp
    · obtain ⟨hlen, hh, ht, hcap⟩ := consumeGo_obs
        (readyFrom r r.head W)
        { r with head := r.head + readyFrom r r.head W }
        r.head
      refine ⟨?_, ht, hcap⟩
      rw [hh, hlen]

theorem applyOp_counters {α : Type} {r : Ring α} {op : Op α} {res : Ring α × Nat × Nat}
    (h : applyOp r op = some res) :
    res.1.tail = r.tail + res.2.1 ∧ res.1.head = r.head + res.2.2 ∧
    res.1.capacity = r.capacity := by
  cases op with
  | spscEnq v =>
    rw [applyOp] at h
    obtain rfl := Option.some.inj h
    obtain ⟨hh, hcap, ht⟩ := spscTryEnqueue_obs r v
    exact ⟨ht, by simp [hh], hcap⟩
  | spscDeq =>
    rw [applyOp] at h
    obtain rfl := Option.some.inj h
    obtain ⟨ht, hcap, hh⟩ := spscTryDequeue_obs r
    exact ⟨by simp [ht], hh, hcap⟩
  | mpmcEnq v =>
    rw [applyOp, Option.map_eq_some'] at h
    obtain ⟨q, hq, rfl⟩ := h
    obtain ⟨hh, hcap, ht⟩ := mpmcTryEnqueue_obs hq
    exact ⟨ht, by simp [hh], hcap⟩
  | mpmcDeq =>
    rw [applyOp, Option.map_eq_some'] at h
    obtain ⟨q, hq, rfl⟩ := h
    obtain ⟨ht, hcap, hh⟩ := mpmcTryDequeue_obs hq
    exact ⟨by simp [ht], hh, hcap⟩
  | enqMany items =>
    rw [applyOp, Option.map_eq_some'] at h
    obtain ⟨q, hq, rfl⟩ := h
    obtain ⟨ht, hh, hcap, _⟩ := enqueueMany_counters hq
    exact ⟨ht, by simp [hh], hcap⟩
  | deqManySpan n =>
    rw [applyOp, Option.map_eq_some'] at h
    obtain ⟨q, hq, rfl⟩ := h
    obtain ⟨hh, ht, hcap⟩ := dequeueManySpan_counters hq
    exact ⟨by simp [ht], hh, hcap⟩
  | deqManyPtr n =>
    rw [applyOp] at h
    obtain rfl := Option.some.inj h
    obtain ⟨hh, ht, hcap⟩ := dequeueManyPtr_counters r n
    exact ⟨by simp [ht], hh, hcap⟩

theorem runOps_counters {α : Type} :
    ∀ (ops : List (Op α)) (r r2 : Ring α) (e d : Nat),
      runOps r ops = some (r2, e, d) →
      r2.tail = r.tail + e ∧ r2.head = r.head + d ∧ r2.capacity = r.capacity := by
  intro ops
  induction ops with
  | nil =>
    intro r r2 e d h
    rw [runOps] at h
    have hpair := Option.some.inj h
    injection hpair with h1 h2
    injection h2 with h2 h3
    subst h1
    subst h2
    subst h3
    exact ⟨by omega, by omega, rfl⟩
  | cons op ops ih =>
    intro r r2 e d h
    rw [runOps] at h
    split at h
    · rename_i r1 e1 d1 happ
      split at h
      · rename_i r3 e2 d2 hrun
        have hpair := Option.some.inj h
        injection hpair with h1 h2
        injection h2 with h2 h3
        subst h1
        subst h2
        subst h3
        obtain ⟨ht1, hh1, hc1⟩ := applyOp_counters happ
        dsimp only at ht1 hh1 hc1
        obtain ⟨ht2, hh2, hc2⟩ := ih r1 r3 e2 d2 hrun
        refine ⟨by omega, by omega, by omega⟩
      · exact absurd h (by simp)
    · exact absurd h (by simp)

theorem runOps_reachable {α : Type} :
    ∀ (ops : List (Op α)) (r r2 : Ring α) (e d : Nat),
      Reachable r → runOps r ops = some (r2, e, d) → Reachable r2 := by
  intro ops
  induction ops with
  | nil =>
    intro r r2 e d hr h
    rw [runOps] at h
    have hpair := Option.some.inj h
    injection hpair with h1 h2
    subst h1
    exact hr
  | cons op ops ih =>
    intro r r2 e d hr h
    rw [runOps] at h
    split at h
    · rename_i r1 e1 d1 happ
      split at h
      · rename_i r3 e2 d2 hrun
        have hpair := Option.some.inj h
        injection hpair with h1 h2
        subst h1
        exact ih r1 r3 e2 d2 (Reachable.step hr happ) hrun
      · exact absurd h (by simp)
    · exact absurd h (by simp)

/-- One enqueue step of the refinement: the ring and the bounded FIFO agree
on the returned flag and stay related. -/
theorem sim_enq {α : Type} {r : Ring α} {q : List α} (hs : SimInv r q) (v : α) :
    (spscTryEnqueue r v).1 = (fifoEnqueue r.capacity q v).1 ∧
    SimInv (spscTryEnqueue r v).2 (fifoEnqueue r.capacity q v).2 := by
  obtain ⟨hInv, h2, hlen, hstore⟩ := hs
  obtain ⟨⟨k, hc⟩, hht, hone, hbig⟩ := hInv
  obtain ⟨htc, hw, hf⟩ := hbig h2
  have hcpos : 0 < r.capacity := by omega
  have hiff := seq_tail_of_inv ⟨⟨k, hc⟩, hht, hone, hbig⟩ h2
  by_cases hfull : r.tail < r.head + r.capacity
  · have hcond := hiff.mpr hfull
    have hqlen : ¬ (q.length = r.capacity) := by omega
    rw [spscTryEnqueue, if_pos hcond, fifoEnqueue, if_neg hqlen]
    refine ⟨rfl, inv_enq_update ⟨⟨k, hc⟩, hht, hone, hbig⟩ hcond v, h2, ?_, ?_⟩
    · show (q ++ [v]).length = (r.tail + 1) - r.head
      rw [List.length_append]
      simp only [List.length_singleton]
      omega
    · intro i hi
      have hi' : i < (q ++ [v]).length := hi
      rw [List.length_append, List.length_singleton] at hi'
      show Function.update r.storage (r.slotIdx r.tail) (some v) ((r.head + i) % r.capacity)
        = (q ++ [v])[i]?
      rw [slotIdx_eq_mod r hc]
      by_cases hiq : i = q.length
      · subst hiq
        have hht2 : r.head + q.length = r.tail := by omega
        rw [hht2, Function.update_same]
        exact (List.getElem?_concat_length q v).symm
      · have hilt : i < q.length := by omega
        rw [update_seq_ne r.storage _ hcpos (show r.head ≤ r.head + i by omega)
          (by omega) hht hfull (by omega)]
        rw [hstore i hilt]
        exact (List.getElem?_append_left hilt).symm
  · have hcond : ¬ (r.seq (r.slotIdx r.tail) = r.tail) := fun hcond => by
      have := hiff.mp hcond
      omega
    have hqlen : q.length = r.capacity := by omega
    rw [spscTryEnqueue, if_neg hcond, fifoEnqueue, if_pos hqlen]
    exact ⟨rfl, ⟨⟨k, hc⟩, hht, hone, hbig⟩, h2, hlen, hstore⟩

/-- One dequeue step of the refinement: the ring and the bounded FIFO agree
on the returned flag and value and stay related. -/
theorem sim_deq {α : Type} {r : Ring α} {q : List α} (hs : SimInv r q) :
    (spscTryDequeue r).1 = (fifoDequeue q).1 ∧
    (spscTryDequeue r).2.1 = (fifoDequeue q).2.1 ∧
    SimInv (spscTryDequeue r).2.2 (fifoDequeue q).2.2 := by
  obtain ⟨hInv, h2, hlen, hstore⟩ := hs
  obtain ⟨⟨k, hc⟩, hht, hone, hbig⟩ := hInv
  obtain ⟨htc, hw, hf⟩ := hbig h2
  have hcpos : 0 < r.capacity := by omega
  have hiff := seq_head_of_inv ⟨⟨k, hc⟩, hht, hone, hbig⟩ h2
  cases q with
  | nil =>
    have hlen' : (0 : Nat) = r.tail - r.head := by simpa using hlen
    have hcond : ¬ (r.seq (r.slotIdx r.head) = r.head + 1) := fun hcond => by
      have := hiff.mp hcond
      omega
    rw [spscTryDequeue, if_neg hcond]
    exact ⟨rfl, rfl, ⟨⟨k, hc⟩, hht, hone, hbig⟩, h2, hlen, hstore⟩
  | cons x xs =>
    have hlen' : xs.length + 1 = r.tail - r.head := by simpa using hlen
    have hlt : r.head < r.tail := by omega
    have hcond := hiff.mpr hlt
    rw [spscTryDequeue, if_pos hcond]
    have hout : r.storage (r.slotIdx r.head) = some x := by
      rw [slotIdx_eq_mod r hc]
      have h0 := hstore 0 (by simp)
      simpa using h0
    refine ⟨rfl, hout, inv_deq_update ⟨⟨k, hc⟩, hht, hone, hbig⟩ hcond, h2, ?_, ?_⟩
    · show xs.length = r.tail - (r.head + 1)
      omega
    · intro i hi
      have hi' : i < xs.length := hi
      show Function.update r.storage (r.slotIdx r.head) none ((r.head + 1 + i) % r.capacity)
        = xs[i]?
      rw [slotIdx_eq_mod r hc]
      rw [update_seq_ne r.storage _ hcpos (show r.head ≤ r.head + 1 + i by omega)
        (by omega) (le_refl _) (by omega) (by omega)]
      have hsi := hstore (i + 1) (by simp; omega)
      rw [show r.head + 1 + i = r.head + (i + 1) by omega, hsi]
      simp

/-- Trace equivalence: an SPSC ring with capacity at least 2 and the bounded
FIFO produce identical observable traces on every command sequence. -/
theorem sim_run {α : Type} :
    ∀ (cmds : List (SpscCmd α)) (r : Ring α) (q : List α),
      SimInv r q → spscRun r cmds = fifoRun r.capacity q cmds := by
  intro cmds
  induction cmds with
  | nil =>
    intro r q hs
    rfl
  | cons c cs ih =>
    intro r q hs
    cases c with
    | enq v =>
      show ((spscTryEnqueue r v).1, (none : Option α)) :: spscRun (spscTryEnqueue r v).2 cs
        = ((fifoEnqueue r.capacity q v).1, none) ::
          fifoRun r.capacity (fifoEnqueue r.capacity q v).2 cs
      obtain ⟨hflag, hs'⟩ := sim_enq hs v
      have htail := ih (spscTryEnqueue r v).2 (fifoEnqueue r.capacity q v).2 hs'
      rw [(spscTryEnqueue_obs r v).2.1] at htail
      rw [hflag, htail]
    | deq =>
      show ((spscTryDequeue r).1, (spscTryDequeue r).2.1) :: spscRun (spscTryDequeue r).2.2 cs
        = ((fifoDequeue q).1, (fifoDequeue q).2.1) ::
          fifoRun r.capacity (fifoDequeue q).2.2 cs
      obtain ⟨hflag, hval, hs'⟩ := sim_deq hs
      have htail := ih (spscTryDequeue r).2.2 (fifoDequeue q).2.2 hs'
      rw [(spscTryDequeue_obs r).2.1] at htail
      rw [hflag, hval, htail]

/-- A fresh ring of capacity at least 2 is related to the empty queue. -/
theorem simInv_mkRing {α : Type} (cap : Nat) (hcap2 : 2 ≤ cap) (hcap : cap ≤ 2 ^ 63) :
    SimInv (mkRing α cap) ([] : List α) := by
  obtain ⟨k, hk, hge, _⟩ := next_pow2_spec cap hcap
  refine ⟨inv_mkRing cap hcap, ?_, rfl, ?_⟩
  · show 2 ≤ next_pow2 cap
    omega
  · intro i hi
    simp at hi

/-- The publish loop of `enqueue_many` completes without waiting when every
reserved slot already carries its free ticket: publishes to distinct
physical slots never disturb the later reserved slots of the same batch. -/
theorem enqueueManyGo_of_free {α : Type} :
    ∀ (items : List α) (r : Ring α) (idx : Nat) (k : Nat),
      r.capacity = 2 ^ k → items.length ≤ r.capacity →
      (∀ i, i < items.length → r.seq ((idx + i) % r.capacity) = idx + i) →
      ∃ r2, enqueueManyGo r idx items = some r2 := by
  intro items
  induction items with
  | nil =>
    intro r idx k hc hlen hfree
    exact ⟨r, rfl⟩
  | cons v rest ih =>
    intro r idx k hc hlen hfree
    have hcpos : 0 < r.capacity := by
      have := Nat.pos_pow_of_pos k (show 0 < 2 by omega)
      omega
    have hcond : r.seq (r.slotIdx idx) = idx := by
      rw [slotIdx_eq_mod r hc]
      have h0 := hfree 0 (by simp)
      simpa using h0
    rw [enqueueManyGo, if_pos hcond]
    simp only [List.length_cons] at hlen
    refine ih { r with
        storage := Function.update r.storage (r.slotIdx idx) (some v)
        seq := Function.update r.seq (r.slotIdx idx) (idx + 1) }
      (idx + 1) k hc ?_ ?_
    · show rest.length ≤ r.capacity
      omega
    intro i hi
    show Function.update r.seq (r.slotIdx idx) (idx + 1) ((idx + 1 + i) % r.capacity)
      = idx + 1 + i
    rw [slotIdx_eq_mod r hc]
    rw [update_seq_ne r.seq _ hcpos (show idx ≤ idx + 1 + i by omega)
      (by omega) (le_refl _) (by omega) (by omega)]
    have hfi := hfree (i + 1) (by simp; omega)
    rw [show idx + 1 + i = idx + (i + 1) by omega]
    exact hfi

/-- Characterization of the contiguous-ready scan: every counted slot is
published, and when the scan stops early the next slot is not. -/
theorem readyFrom_spec {α : Type} :
    ∀ (w idx : Nat) (r : Ring α),
      (∀ j, j < readyFrom r idx w → r.seq (r.slotIdx (idx + j)) = idx + j + 1) ∧
      readyFrom r idx w ≤ w ∧
      (readyFrom r idx w < w →
        ¬ (r.seq (r.slotIdx (idx + readyFrom r idx w)) = idx + readyFrom r idx w + 1)) := by
  intro w
  induction w with
  | zero =>
    intro idx r
    refine ⟨?_, le_refl _, ?_⟩
    · intro j hj
      rw [readyFrom] at hj
      omega
    · intro h
      rw [readyFrom] at h
      omega
  | succ m ih =>
    intro idx r
    rw [readyFrom]
    split
    case isTrue hcond =>
      obtain ⟨iha, ihb, ihc⟩ := ih (idx + 1) r
      refine ⟨?_, by omega, ?_⟩
      · intro j hj
        cases j with
        | zero => simpa using hcond
        | succ j' =>
          have := iha j' (by omega)
          rw [show idx + (j' + 1) = idx + 1 + j' by omega]
          exact this
      · intro hlt
        have hlt' : readyFrom r (idx + 1) m < m := by omega
        have := ihc hlt'
        rw [show idx + (readyFrom r (idx + 1) m + 1) = idx + 1 + readyFrom r (idx + 1) m
          by omega]
        exact this
    case isFalse hcond =>
      refine ⟨?_, by omega, ?_⟩
      · intro j hj
        omega
      · intro _
        simpa using hcond

/-- C10: failed single-item operations are atomic.  Whenever `try_enqueue`
returns Full or `try_dequeue` returns Empty on either variant in a
sequential execution, the returned state is exactly the input state (all
counters, tickets and storage unchanged), and a failed dequeue delivers no
value. -/
theorem failed_ops_preserve_state {α : Type} :
    (∀ (r r' : Ring α) (v : α), spscTryEnqueue r v = (false, r') → r' = r) ∧
    (∀ (r r' : Ring α) (out : Option α),
      spscTryDequeue r = (false, out, r') → out = none ∧ r' = r) ∧
    (∀ (r r' : Ring α) (v : α), mpmcTryEnqueue r v = some (false, r') → r' = r) ∧
    (∀ (r r' : Ring α) (out : Option α),
      mpmcTryDequeue r = some (false, out, r') → out = none ∧ r' = r) := by
  refine ⟨?_, ?_, ?_, ?_⟩
  · intro r r' v h
    rw [spscTryEnqueue] at h
    split at h
    · injection h with h1 _
      exact absurd h1 (by simp)
    · injection h with _ h2
      exact h2.symm
  · intro r r' out h
    rw [spscTryDequeue] at h
    split at h
    · injection h with h1 _
      exact absurd h1 (by simp)
    · injection h with _ h2
      injection h2 with h2 h3
      exact ⟨h2.symm, h3.symm⟩
  · intro r r' v h
    rw [mpmcTryEnqueue] at h
    split at h
    · have := Option.some.inj h
      injection this with h1 _
      exact absurd h1 (by simp)
    · split at h
      · have := Option.some.inj h
        injection this with _ h2
        exact h2.symm
      · exact absurd h (by simp)
  · intro r r' out h
    rw [mpmcTryDequeue] at h
    split at h
    · have := Option.some.inj h
      injection this with h1 _
      exact absurd h1 (by simp)
    · split at h
      · have := Option.some.inj h
        injection this with _ h2
        injection h2 with h2 h3
        exact ⟨h2.symm, h3.symm⟩
      · exact absurd h (by simp)

/-- C10 witness: concrete failures on full and empty capacity-2 rings leave
the state untouched. -/
theorem failed_ops_preserve_state_witness :
    (spscTryEnqueue full2 9).2 = full2 ∧
    ((spscTryDequeue (mkRing Nat 2)).2.1 = none ∧
      (spscTryDequeue (mkRing Nat 2)).2.2 = mkRing Nat 2) ∧
    ((mpmcTryEnqueue full2 9).get (by rfl)).2 = full2 := by
  refine ⟨?_, ?_, ?_⟩
  · exact failed_ops_preserve_state.1 full2 _ 9 rfl
  · exact failed_ops_preserve_state.2.1 (mkRing Nat 2) _ _ rfl
  · exact failed_ops_preserve_state.2.2.1 full2 _ 9 rfl

/-- C3 counterexample: on a capacity-1 ring (requested capacity 1, a legal
construction) two successive `try_enqueue` calls both succeed, reaching a
state with `tail - head = 2 > capacity = 1`; the claimed invariant fails. -/
theorem counters_cross_capacity_one :
    Reachable ((spscTryEnqueue (spscTryEnqueue (mkRing Nat 1) 10).2 20).2) ∧
    ((spscTryEnqueue (spscTryEnqueue (mkRing Nat 1) 10).2 20).2).capacity
      < ((spscTryEnqueue (spscTryEnqueue (mkRing Nat 1) 10).2 20).2).tail
        - ((spscTryEnqueue (spscTryEnqueue (mkRing Nat 1) 10).2 20).2).head := by
  constructor
  · have h0 : Reachable (mkRing Nat 1) := Reachable.init 1 (by norm_num)
    have h1 : Reachable ((spscTryEnqueue (mkRing Nat 1) 10).2) :=
      Reachable.step h0 (rfl :
        applyOp (mkRing Nat 1) (Op.spscEnq 10) = some ((spscTryEnqueue (mkRing Nat 1) 10).2,
          if (spscTryEnqueue (mkRing Nat 1) 10).1 then 1 else 0, 0))
    exact Reachable.step h1 (rfl :
      applyOp ((spscTryEnqueue (mkRing Nat 1) 10).2) (Op.spscEnq 20)
        = some ((spscTryEnqueue (spscTryEnqueue (mkRing Nat 1) 10).2 20).2,
          if (spscTryEnqueue (spscTryEnqueue (mkRing Nat 1) 10).2 20).1 then 1 else 0, 0))
  · decide

/-- C3 (amended to capacity at least 2): in every sequentially reachable
state of either ring variant the counters never cross and the queue is
never overfilled: `head ≤ tail` and `tail - head ≤ capacity`. -/
theorem ring_counters_bounded {α : Type} (r : Ring α) (hr : Reachable r)
    (h2 : 2 ≤ r.capacity) : r.head ≤ r.tail ∧ r.tail - r.head ≤ r.capacity := by
  obtain ⟨_, hht, _, hbig⟩ := inv_reachable hr
  have := (hbig h2).1
  exact ⟨hht, by omega⟩

/-- C3 witness: the bound instantiated on a fresh capacity-4 ring. -/
theorem ring_counters_bounded_witness :
    (mkRing Nat 4).head ≤ (mkRing Nat 4).tail ∧
    (mkRing Nat 4).tail - (mkRing Nat 4).head ≤ (mkRing Nat 4).capacity :=
  ring_counters_bounded (mkRing Nat 4) (Reachable.init 4 (by norm_num)) (by decide)

/-- C4: in every sequentially reachable state of either variant, the ticket
of the slot at masked index `p` is `p + m * capacity` (empty for generation
`m`) or `p + 1 + m * capacity` (written for generation `m`) for some
`m ≥ 0`. -/
theorem slot_ticket_generations {α : Type} (r : Ring α) (hr : Reachable r)
    (p : Nat) (hp : p < r.capacity) :
    ∃ m, r.seq p = p + m * r.capacity ∨ r.seq p = p + 1 + m * r.capacity := by
  obtain ⟨⟨k, hc⟩, hht, hone, hbig⟩ := inv_reachable hr
  rcases cap_one_or_ge_two ⟨k, hc⟩ with h1 | h2
  · refine ⟨r.seq 0, Or.inl ?_⟩
    have hp0 : p = 0 := by omega
    subst hp0
    rw [h1]
    omega
  · obtain ⟨htc, hw, hf⟩ := hbig h2
    obtain ⟨j, hj1, hj2, hj3⟩ :=
      @exists_window_rep r.capacity r.head p (by omega) hp
    have hdm : r.capacity * (j / r.capacity) + j % r.capacity = j :=
      Nat.div_add_mod j r.capacity
    rw [hj3] at hdm
    by_cases hjw : j < r.tail
    · refine ⟨j / r.capacity, Or.inr ?_⟩
      have hs := hw j hj1 hjw
      rw [hj3] at hs
      rw [hs, Nat.mul_comm (j / r.capacity) r.capacity]
      omega
    · refine ⟨j / r.capacity, Or.inl ?_⟩
      have hs := hf j (by omega) hj2
      rw [hj3] at hs
      rw [hs, Nat.mul_comm (j / r.capacity) r.capacity]
      omega

/-- C4 witness: the ticket shape instantiated at slot 1 of a fresh
capacity-2 ring. -/
theorem slot_ticket_generations_witness :
    ∃ m, (mkRing Nat 2).seq 1 = 1 + m * (mkRing Nat 2).capacity ∨
      (mkRing Nat 2).seq 1 = 1 + 1 + m * (mkRing Nat 2).capacity :=
  slot_ticket_generations (mkRing Nat 2) (Reachable.init 2 (by norm_num)) 1 (by decide)

/-- C8: constructing a ring (either variant) with a requested capacity
`cap` in the embedded `size_t` domain yields `capacity()` equal to the
smallest power of two at least `cap`; a request of 0 yields capacity 1; and
the capacity is fixed for the ring's lifetime (no completed operation of
either variant changes it). -/
theorem ring_capacity_rounding (cap : Nat) (_h1 : 1 ≤ cap) (h63 : cap ≤ 2 ^ 63) :
    (∃ k, (mkRing Nat cap).capacity = 2 ^ k ∧ cap ≤ 2 ^ k ∧
      ∀ m, cap ≤ 2 ^ m → 2 ^ k ≤ 2 ^ m) ∧
    (mkRing Nat 0).capacity = 1 ∧
    (∀ (r r2 : Ring Nat) (op : Op Nat) (e d : Nat),
      applyOp r op = some (r2, e, d) → r2.capacity = r.capacity) := by
  refine ⟨?_, rfl, ?_⟩
  · obtain ⟨k, hk, hge, hmin⟩ := next_pow2_spec cap h63
    exact ⟨k, hk, hge, hmin⟩
  · intro r r2 op e d h
    exact (applyOp_counters h).2.2

/-- C8 witness: requested capacity 5 rounds to the least power of two at
least 5. -/
theorem ring_capacity_rounding_witness :
    ∃ k, (mkRing Nat 5).capacity = 2 ^ k ∧ 5 ≤ 2 ^ k ∧
      ∀ m, 5 ≤ 2 ^ m → 2 ^ k ≤ 2 ^ m :=
  (ring_capacity_rounding 5 (by omega) (by norm_num)).1

/-- C9 counterexample: on a capacity-1 ring, two successful enqueues (both
counted) drive `size()` to 2, which equals enqueues minus dequeues but
exceeds `capacity = 1` at a quiescent moment. -/
theorem size_exceeds_capacity_one :
    (runOps (mkRing Nat 1) [Op.spscEnq 10, Op.spscEnq 20]).map
        (fun res => (res.1.size, res.1.capacity, res.2.1, res.2.2))
      = some (2, 1, 2, 0) := by
  decide

/-- C9 (amended: the range bound `size ≤ capacity` restricted to capacity
at least 2): after any completed sequential run of operations of either
variant, `size()` equals exactly the number of successfully enqueued items
minus the number of successfully dequeued ones. -/
theorem size_counts_operations {α : Type} (cap : Nat) (ops : List (Op α))
    (r2 : Ring α) (e d : Nat) (h63 : cap ≤ 2 ^ 63)
    (h : runOps (mkRing α cap) ops = some (r2, e, d)) :
    d ≤ e ∧ r2.size = e - d ∧ (2 ≤ r2.capacity → r2.size ≤ r2.capacity) := by
  obtain ⟨ht, hh, _⟩ := runOps_counters ops (mkRing α cap) r2 e d h
  have h0t : (mkRing α cap).tail = 0 := rfl
  have h0h : (mkRing α cap).head = 0 := rfl
  have hreach : Reachable r2 := runOps_reachable ops _ r2 e d (Reachable.init cap h63) h
  obtain ⟨_, hht, _, hbig⟩ := inv_reachable hreach
  refine ⟨by omega, ?_, ?_⟩
  · show r2.tail - r2.head = e - d
    omega
  · intro h2
    have := (hbig h2).1
    show r2.tail - r2.head ≤ r2.capacity
    omega

/-- C9 witness: two enqueues and one dequeue on a capacity-4 ring leave
`size() = 2 - 1`. -/
theorem size_counts_operations_witness :
    ((spscTryDequeue (spscTryEnqueue (spscTryEnqueue (mkRing Nat 4) 7).2 8).2).2.2).size
      = 2 - 1 :=
  (size_counts_operations 4 [Op.spscEnq 7, Op.spscEnq 8, Op.spscDeq]
    ((spscTryDequeue (spscTryEnqueue (spscTryEnqueue (mkRing Nat 4) 7).2 8).2).2.2) 2 1
    (by norm_num) (by rfl)).2.1

/-- C1 counterexample: the claim covers both `dequeue_many` overloads, but
the span overload reserves with `fetch_add` and waits: on a fresh
capacity-4 ring with no item ready at head, `dequeue_many(span, 1)` never
returns (modelled `none`) instead of returning 0 with `head` unchanged. -/
theorem mpmc_dequeue_many_span_blocks :
    ((mkRing Nat 4).seq ((mkRing Nat 4).slotIdx (mkRing Nat 4).head) ≠ (mkRing Nat 4).head + 1) ∧
    dequeueManySpan (mkRing Nat 4) 1 = none := by
  constructor
  · decide
  · rfl

/-- C1 (amended to the pointer overload `dequeue_many(T*, n)`): for every
ring state and `n > 0` the call never blocks and never over-claims: it
claims exactly the contiguous run of published slots at `head` (clamped to
`min(n, capacity)`), advances `head` by exactly that count, and when no
item is ready at `head` it returns 0 and leaves the state untouched. -/
theorem mpmc_dequeue_many_ptr_nonblocking {α : Type} (r : Ring α) (n : Nat) (hn : 0 < n) :
    ∃ k, k ≤ (if n > r.capacity then r.capacity else n) ∧
      (∀ j, j < k → r.seq (r.slotIdx (r.head + j)) = r.head + j + 1) ∧
      (k < (if n > r.capacity then r.capacity else n) →
        ¬ (r.seq (r.slotIdx (r.head + k)) = r.head + k + 1)) ∧
      (dequeueManyPtr r n).1.length = k ∧
      (dequeueManyPtr r n).2.head = r.head + k ∧
      (¬ (r.seq (r.slotIdx r.head) = r.head + 1) → dequeueManyPtr r n = ([], r)) := by
  rw [dequeueManyPtr, if_neg (show ¬ n = 0 by omega)]
  generalize hW : (if n > r.capacity then r.capacity else n) = W
  obtain ⟨ha, hb, hc'⟩ := readyFrom_spec W r.head r
  refine ⟨readyFrom r r.head W, hb, ha, hc', ?_, ?_, ?_⟩
  · by_cases hr0 : readyFrom r r.head W = 0
    · rw [if_pos hr0, hr0]
      rfl
    · rw [if_neg hr0]
      exact (consumeGo_obs (readyFrom r r.head W)
        { r with head := r.head + readyFrom r r.head W } r.head).1
  · by_cases hr0 : readyFrom r r.head W = 0
    · rw [if_pos hr0, hr0]
      rfl
    · rw [if_neg hr0]
      exact (consumeGo_obs (readyFrom r r.head W)
        { r with head := r.head + readyFrom r r.head W } r.head).2.1
  · intro hnr
    have hr0 : readyFrom r r.head W = 0 := by
      cases W with
      | zero => rfl
      | succ m => rw [readyFrom, if_neg hnr]
    rw [if_pos hr0]

/-- C1 witness: on a fresh capacity-4 ring nothing is ready, so the pointer
overload returns 0 immediately with the state untouched. -/
theorem mpmc_dequeue_many_ptr_nonblocking_witness :
    dequeueManyPtr (mkRing Nat 4) 2 = ([], mkRing Nat 4) := by
  obtain ⟨k, -, -, -, -, -, hlast⟩ :=
    mpmc_dequeue_many_ptr_nonblocking (mkRing Nat 4) 2 (by omega)
  exact hlast (by decide)

/-- C2: for every ring state whose reserved block of `min(n, capacity)`
slots is free (the sequential reading of "consumers drain reserved slots"),
`enqueue_many` completes and returns exactly the clamped count; moreover
whenever `enqueue_many` completes at all it returns exactly the clamped
count, never a smaller partial count. -/
theorem mpmc_enqueue_many_returns_clamped {α : Type} (r : Ring α) (items : List α) (k : Nat)
    (hc : r.capacity = 2 ^ k)
    (hfree : ∀ i, i < (if items.length > r.capacity then r.capacity else items.length) →
      r.seq (r.slotIdx (r.tail + i)) = r.tail + i) :
    (∀ cnt r2, enqueueMany r items = some (cnt, r2) →
      cnt = (if items.length > r.capacity then r.capacity else items.length)) ∧
    ∃ r2, enqueueMany r items
      = some ((if items.length > r.capacity then r.capacity else items.length), r2) := by
  have hcpos : 0 < r.capacity := cap_pos ⟨k, hc⟩
  by_cases hlen : items.length = 0
  · constructor
    · intro cnt r2 h
      rw [enqueueMany, if_pos hlen] at h
      have := Option.some.inj h
      injection this with h1 _
      rw [← h1, hlen]
      split <;> omega
    · refine ⟨r, ?_⟩
      rw [enqueueMany, if_pos hlen, hlen]
      have hz : (if (0 : Nat) > r.capacity then r.capacity else 0) = 0 := by
        split <;> omega
      rw [hz]
  · generalize hW : (if items.length > r.capacity then r.capacity else items.length) = W
      at hfree ⊢
    have hWle : W ≤ r.capacity ∧ W ≤ items.length := by
      rw [← hW]
      split <;> omega
    have hTlen : (items.take W).length = W := by
      rw [List.length_take]
      omega
    have hfree' : ∀ i, i < (items.take W).length →
        ({ r with tail := r.tail + W } : Ring α).seq ((r.tail + i) % r.capacity)
          = r.tail + i := by
      intro i hi
      have := hfree i (by omega)
      rw [slotIdx_eq_mod r hc] at this
      exact this
    obtain ⟨r2, hgo⟩ := enqueueManyGo_of_free (items.take W)
      { r with tail := r.tail + W } r.tail k hc
      (show (items.take W).length ≤ r.capacity by omega) hfree'
    have henq : enqueueMany r items = some (W, r2) := by
      rw [enqueueMany, if_neg hlen, hW, hgo]
    constructor
    · intro cnt r3 h
      rw [henq] at h
      have := Option.some.inj h
      injection this with h1 _
      exact h1.symm
    · exact ⟨r2, henq⟩

/-- C2 witness: a 3-item batch on a fresh capacity-4 ring returns exactly
3. -/
theorem mpmc_enqueue_many_returns_clamped_witness :
    ∃ r2, enqueueMany (mkRing Nat 4) [10, 20, 30] = some (3, r2) := by
  obtain ⟨-, r2, h⟩ :=
    mpmc_enqueue_many_returns_clamped (mkRing Nat 4) [10, 20, 30] 2 (by rfl) (by decide)
  refine ⟨r2, ?_⟩
  have h3 : (if ([10, 20, 30] : List Nat).length > (mkRing Nat 4).capacity
      then (mkRing Nat 4).capacity else ([10, 20, 30] : List Nat).length) = 3 := by decide
  rw [h3] at h
  exact h

theorem slotIdx_congr {r1 r2 : Ring α} (h : r1.capacity = r2.capacity) (x : Nat) :
    r1.slotIdx x = r2.slotIdx x := by
  rw [Ring.slotIdx, Ring.slotIdx, h]

theorem spscTryEnqueue_success_fields {r : Ring α} {v : α}
    (hcond : r.seq (r.slotIdx r.tail) = r.tail) :
    (spscTryEnqueue r v).1 = true ∧
    (spscTryEnqueue r v).2.seq = Function.update r.seq (r.slotIdx r.tail) (r.tail + 1) ∧
    (spscTryEnqueue r v).2.storage = Function.update r.storage (r.slotIdx r.tail) (some v) ∧
    (spscTryEnqueue r v).2.head = r.head ∧ (spscTryEnqueue r v).2.tail = r.tail + 1 ∧
    (spscTryEnqueue r v).2.capacity = r.capacity := by
  rw [spscTryEnqueue, if_pos hcond]
  exact ⟨rfl, rfl, rfl, rfl, rfl, rfl⟩

theorem spscTryDequeue_success_fields {r : Ring α}
    (hcond : r.seq (r.slotIdx r.head) = r.head + 1) :
    (spscTryDequeue r).1 = true ∧
    (spscTryDequeue r).2.1 = r.storage (r.slotIdx r.head) ∧
    (spscTryDequeue r).2.2.seq
      = Function.update r.seq (r.slotIdx r.head) (r.head + r.capacity) ∧
    (spscTryDequeue r).2.2.head = r.head + 1 ∧ (spscTryDequeue r).2.2.tail = r.tail ∧
    (spscTryDequeue r).2.2.capacity = r.capacity := by
  rw [spscTryDequeue, if_pos hcond]
  exact ⟨rfl, rfl, rfl, rfl, rfl, rfl⟩

theorem spscTryDequeue_fail {r : Ring α}
    (hcond : ¬ (r.seq (r.slotIdx r.head) = r.head + 1)) :
    (spscTryDequeue r).1 = false := by
  rw [spscTryDequeue, if_neg hcond]

/-- C6: on every sequentially reachable empty SPSC ring, `try_enqueue(v)`
succeeds, the following `try_dequeue` succeeds and delivers exactly `v`,
and a `try_dequeue` performed immediately after returns Empty. -/
theorem spsc_round_trip {α : Type} (r : Ring α) (v : α) (hr : Reachable r)
    (hempty : r.head = r.tail) :
    (spscTryEnqueue r v).1 = true ∧
    (spscTryDequeue (spscTryEnqueue r v).2).1 = true ∧
    (spscTryDequeue (spscTryEnqueue r v).2).2.1 = some v ∧
    (spscTryDequeue (spscTryDequeue (spscTryEnqueue r v).2).2.2).1 = false := by
  obtain ⟨⟨k, hc⟩, hht, hone, hbig⟩ := inv_reachable hr
  have hcpos : 0 < r.capacity := cap_pos ⟨k, hc⟩
  -- the enqueue check passes on an empty ring, for any capacity
  have hcond1 : r.seq (r.slotIdx r.tail) = r.tail := by
    rcases cap_one_or_ge_two ⟨k, hc⟩ with h1 | h2
    · have hz : r.slotIdx r.tail = 0 := by
        show r.tail &&& (r.capacity - 1) = 0
        rw [h1]
        simp
      rw [hz]
      exact hone h1
    · exact (seq_tail_of_inv ⟨⟨k, hc⟩, hht, hone, hbig⟩ h2).mpr (by omega)
  obtain ⟨hf1, hs1, hst1, hh1, ht1, hcap1⟩ :=
    spscTryEnqueue_success_fields (v := v) hcond1
  -- the slot probed by the first dequeue is the slot just published
  have hslot1 : (spscTryEnqueue r v).2.slotIdx (spscTryEnqueue r v).2.head
      = r.slotIdx r.tail := by
    rw [slotIdx_congr hcap1, hh1, hempty]
  have hcond2 : (spscTryEnqueue r v).2.seq
      ((spscTryEnqueue r v).2.slotIdx (spscTryEnqueue r v).2.head)
      = (spscTryEnqueue r v).2.head + 1 := by
    rw [hslot1, hs1, Function.update_same, hh1, hempty]
  obtain ⟨hf2, hout2, hs2, hh2, ht2, hcap2⟩ := spscTryDequeue_success_fields hcond2
  refine ⟨hf1, hf2, ?_, ?_⟩
  · rw [hout2, hslot1, hst1, Function.update_same]
  · -- the second dequeue probes the next logical slot, which is not written
    apply spscTryDequeue_fail
    rw [hs2, hslot1, hh2, hh1, hempty]
    rw [slotIdx_congr hcap2, slotIdx_congr hcap1]
    rcases cap_one_or_ge_two ⟨k, hc⟩ with h1 | h2
    · -- capacity 1: the freed ticket is tail + 1, the probe expects tail + 2
      have hz : ∀ x, r.slotIdx x = 0 := by
        intro x
        show x &&& (r.capacity - 1) = 0
        rw [h1]
        simp
      rw [hz, hz, Function.update_same, hcap1, h1]
      omega
    · -- capacity at least 2: the probed slot still carries its free ticket
      obtain ⟨htc, hw, hf⟩ := hbig h2
      rw [hs1, slotIdx_eq_mod r hc, slotIdx_eq_mod r hc]
      rw [update_seq_ne _ _ hcpos (show r.tail ≤ r.tail + 1 by omega)
        (by omega) (le_refl _) (by omega) (by omega)]
      rw [update_seq_ne _ _ hcpos (show r.tail ≤ r.tail + 1 by omega)
        (by omega) (le_refl _) (by omega) (by omega)]
      have hfree := hf (r.tail + 1) (by omega) (by omega)
      rw [hfree]
      omega

/-- C6 witness: round trip of the value 99 through a fresh capacity-4
ring. -/
theorem spsc_round_trip_witness :
    (spscTryEnqueue (mkRing Nat 4) 99).1 = true ∧
    (spscTryDequeue (spscTryEnqueue (mkRing Nat 4) 99).2).1 = true ∧
    (spscTryDequeue (spscTryEnqueue (mkRing Nat 4) 99).2).2.1 = some 99 ∧
    (spscTryDequeue (spscTryDequeue (spscTryEnqueue (mkRing Nat 4) 99).2).2.2).1 = false :=
  spsc_round_trip (mkRing Nat 4) 99 (Reachable.init 4 (by norm_num)) rfl

/-- C5 counterexample: on a capacity-1 ring, a reachable state holding
exactly `capacity` items (`tail - head = capacity`) still accepts the next
`try_enqueue`, so Full is not returned exactly when the ring holds
`capacity` items. -/
theorem spsc_full_boundary_fails_capacity_one :
    Reachable ((spscTryEnqueue (mkRing Nat 1) 10).2) ∧
    ((spscTryEnqueue (mkRing Nat 1) 10).2.tail - (spscTryEnqueue (mkRing Nat 1) 10).2.head
      = (spscTryEnqueue (mkRing Nat 1) 10).2.capacity) ∧
    (spscTryEnqueue (spscTryEnqueue (mkRing Nat 1) 10).2 20).1 = true := by
  refine ⟨?_, by decide, by decide⟩
  exact Reachable.step (Reachable.init 1 (by norm_num)) (rfl :
    applyOp (mkRing Nat 1) (Op.spscEnq 10) = some ((spscTryEnqueue (mkRing Nat 1) 10).2,
      if (spscTryEnqueue (mkRing Nat 1) 10).1 then 1 else 0, 0))

/-- C5 (amended to capacity at least 2): in every sequentially reachable
SPSC state, `try_enqueue` returns Full exactly when `tail - head =
capacity` and `try_dequeue` returns Empty exactly when `tail = head`; and
the concrete capacity-4 boundary scenario of the spec holds: dequeue on the
fresh ring is Empty, the four enqueues 10, 20, 30, 40 succeed, a fifth
enqueue of 50 fails, one dequeue yields 10, the retried enqueue of 50
succeeds, and the remaining dequeues yield 20, 30, 40, 50 and then
Empty. -/
theorem spsc_boundary_characterization {α : Type} (r : Ring α) (v : α) (hr : Reachable r)
    (h2 : 2 ≤ r.capacity) :
    ((spscTryEnqueue r v).1 = false ↔ r.tail - r.head = r.capacity) ∧
    ((spscTryDequeue r).1 = false ↔ r.tail = r.head) ∧
    ((spscTryDequeue scn0).1 = false ∧
      (spscTryEnqueue scn0 10).1 = true ∧
      (spscTryEnqueue scn1 20).1 = true ∧
      (spscTryEnqueue scn2 30).1 = true ∧
      (spscTryEnqueue scn3 40).1 = true ∧
      (spscTryEnqueue scn4 50).1 = false ∧
      (spscTryDequeue scn4).1 = true ∧
      (spscTryDequeue scn4).2.1 = some 10 ∧
      (spscTryEnqueue scn5 50).1 = true ∧
      (spscTryDequeue scn6).2.1 = some 20 ∧
      (spscTryDequeue (spscTryDequeue scn6).2.2).2.1 = some 30 ∧
      (spscTryDequeue (spscTryDequeue (spscTryDequeue scn6).2.2).2.2).2.1 = some 40 ∧
      (spscTryDequeue (spscTryDequeue (spscTryDequeue
        (spscTryDequeue scn6).2.2).2.2).2.2).2.1 = some 50 ∧
      (spscTryDequeue (spscTryDequeue (spscTryDequeue (spscTryDequeue
        (spscTryDequeue scn6).2.2).2.2).2.2).2.2).1 = false) := by
  have hInv := inv_reachable hr
  obtain ⟨⟨k, hc⟩, hht, hone, hbig⟩ := inv_reachable hr
  obtain ⟨htc, hw, hf⟩ := hbig h2
  refine ⟨?_, ?_, by decide⟩
  · rw [spscTryEnqueue]
    split
    case isTrue hcond =>
      have hlt := (seq_tail_of_inv hInv h2).mp hcond
      constructor
      · intro hfalse
        exact absurd hfalse (by simp)
      · intro hfull
        exfalso
        omega
    case isFalse hcond =>
      have hnlt : ¬ (r.tail < r.head + r.capacity) :=
        fun hlt => hcond ((seq_tail_of_inv hInv h2).mpr hlt)
      exact ⟨fun _ => by omega, fun _ => rfl⟩
  · rw [spscTryDequeue]
    split
    case isTrue hcond =>
      have hlt := (seq_head_of_inv hInv h2).mp hcond
      constructor
      · intro hfalse
        exact absurd hfalse (by simp)
      · intro heq'
        exfalso
        omega
    case isFalse hcond =>
      have hnlt : ¬ (r.head < r.tail) :=
        fun hlt => hcond ((seq_head_of_inv hInv h2).mpr hlt)
      exact ⟨fun _ => by omega, fun _ => rfl⟩

/-- C5 witness: the empty boundary instantiated on a fresh capacity-4
ring: its first dequeue reports Empty. -/
theorem spsc_boundary_characterization_witness :
    (spscTryDequeue (mkRing Nat 4)).1 = false := by
  have h := spsc_boundary_characterization (mkRing Nat 4) 0
    (Reachable.init 4 (by norm_num)) (by decide)
  exact h.2.1.mpr rfl

/-- C7 counterexample: a capacity-1 SPSC ring does not refine the bounded
FIFO queue of its capacity: the trace of `[enqueue 10, enqueue 20,
dequeue]` differs (the ring accepts the second enqueue, overwriting 10, and
then fails the dequeue; the size-1 FIFO rejects the second enqueue and
dequeues 10). -/
theorem spsc_capacity_one_not_fifo :
    spscRun (mkRing Nat 1) [SpscCmd.enq 10, SpscCmd.enq 20, SpscCmd.deq]
      ≠ fifoRun (mkRing Nat 1).capacity [] [SpscCmd.enq 10, SpscCmd.enq 20, SpscCmd.deq] := by
  decide

/-- C7 (amended to capacity at least 2): an SPSC ring operated sequentially
refines the bounded FIFO list queue of its capacity: on every interleaved
command sequence (of any length, so including arbitrary wrap-around) the
ring and the FIFO produce identical traces of flags and dequeued values; in
particular dequeued values appear exactly in enqueue order. -/
theorem spsc_refines_bounded_fifo {α : Type} (cap : Nat) (cmds : List (SpscCmd α))
    (h2 : 2 ≤ cap) (h63 : cap ≤ 2 ^ 63) :
    spscRun (mkRing α cap) cmds = fifoRun (mkRing α cap).capacity [] cmds :=
  sim_run cmds (mkRing α cap) [] (simInv_mkRing cap h2 h63)

/-- C7 witness: a wrap-around trace on a capacity-2 ring (three enqueues
and three dequeues) matches the bounded FIFO trace. -/
theorem spsc_refines_bounded_fifo_witness :
    spscRun (mkRing Nat 2)
        [SpscCmd.enq 5, SpscCmd.enq 6, SpscCmd.enq 7, SpscCmd.deq, SpscCmd.deq, SpscCmd.deq]
      = fifoRun (mkRing Nat 2).capacity []
        [SpscCmd.enq 5, SpscCmd.enq 6, SpscCmd.enq 7, SpscCmd.deq, SpscCmd.deq, SpscCmd.deq] :=
  spsc_refines_bounded_fifo 2
    [SpscCmd.enq 5, SpscCmd.enq 6, SpscCmd.enq 7, SpscCmd.deq, SpscCmd.deq, SpscCmd.deq]
    (by omega) (by norm_num)

end MlmpcRing
